import Mathlib

/-!
Verification of the SinaraML archive module (`sinara/archive.py`).

The module packs a directory tree of files into a columnar store (one row
per file, oversized files pre-split into fixed-size chunks) and unpacks it
back (write every row to its relative path, then rejoin chunk groups).

We embed the file-level logic shallowly:

* byte strings are `List Nat`, file names are `List Char` (a Python `str`
  is a sequence of characters), paths are lists of name components, and a
  filesystem is an association list from paths to byte strings;
* `_split_file`, the pack walk / split pass, the Spark row load
  (`filter (length <= ROW_SIZE)` plus the `relPath` column), the per-row
  `SinaraArchive_save_file` writer and `_join_parts` are translated
  function by function.
-/

namespace Sinara

/-- File contents: a sequence of bytes. -/
abbrev Bytes := List Nat

/-- A file or directory name: a sequence of characters (a Python `str`). -/
abbrev Name := List Char

/-- A filesystem path, as its list of name components. -/
abbrev Fpath := List Name

/-- A filesystem (or a directory subtree): a finite map from paths to file
contents, represented as an association list. -/
abbrev Tree := List (Fpath × Bytes)

/-- First-match association lookup: the content stored at path `p`. -/
def lookupT (t : Tree) (p : Fpath) : Option Bytes :=
  match t with
  | [] => none
  | e :: rest => if e.1 = p then some e.2 else lookupT rest p

/-- `open(path, 'wb')` followed by a full write: replace any entry at `p`
by the new content. -/
def writeFile (t : Tree) (p : Fpath) (b : Bytes) : Tree :=
  (t.filter fun e => !(decide (e.1 = p))) ++ [(p, b)]

/-- `Path(p).touch()`: create an empty file at `p` if none exists; an
existing file is left completely unchanged (`touch` only updates its
timestamps, it does not truncate). -/
def touchFile (t : Tree) (p : Fpath) : Tree :=
  match lookupT t p with
  | some _ => t
  | none => t ++ [(p, [])]

/-- Fuel-indexed form of the read loop of `_split_file` (structural
recursion, so that terms evaluate by kernel reduction; the fuel is
irrelevant as soon as it exceeds the number of reads, see
`splitChunksF_congr`). -/
def splitChunksF : Nat → Nat → Bytes → List Bytes
  | 0, _, _ => []
  | fuel + 1, c, l =>
    if c = 0 ∨ l = [] then [] else l.take c :: splitChunksF fuel c (l.drop c)

/-- The read loop of `_split_file`: `fin.read(chunk_size)` repeatedly,
stopping at the first empty read.  (`read(0)` returns `b''` at once, so a
zero chunk size produces no chunks, exactly as in Python.) -/
def splitChunks (c : Nat) (l : Bytes) : List Bytes := splitChunksF (l.length + 1) c l

/-- The decimal digit `d` as a character (`'0'` … `'9'`). -/
def digitChar (d : Nat) : Char := Char.ofNat (48 + d)

/-- Fuel-indexed decimal representation (structural recursion; the fuel
is irrelevant once it exceeds the digit count, see `natCharsF_congr`). -/
def natCharsF : Nat → Nat → Name
  | 0, _ => []
  | fuel + 1, n =>
    if n < 10 then [digitChar n]
    else natCharsF fuel (n / 10) ++ [digitChar (n % 10)]

/-- Decimal representation of `n`, most significant digit first. -/
def natChars (n : Nat) : Name := natCharsF (n + 1) n

/-- Python `f"{n:04d}"`: the decimal representation of `n`, left-padded
with zeros to a minimum width of four characters. -/
def pad04 (n : Nat) : Name := List.replicate (4 - (natChars n).length) '0' ++ natChars n

/-- The common stem of chunk file names (`"part-"`). -/
def partPre : Name := "part-".data

/-- The chunk file name `part-{i:04d}` produced by `_split_file`. -/
def partName (i : Nat) : Name := partPre ++ pad04 i

/-- The completion marker file name `_PARTS`. -/
def sentinelName : Name := "_PARTS".data

/-- The chunk-group directory name suffix `".parts"`. -/
def partsSuffix : Name := ".parts".data

/-- The chunk files the read loop of `_split_file` writes: the chunks in
read order, named with the running index. -/
def chunkWrites (c : Nat) (l : Bytes) : List (Name × Bytes) :=
  (splitChunks c l).enum.map fun ic => (partName ic.1, ic.2)

/-- The files a split leaves inside a freshly created `.parts`
directory: the indexed chunk files, then (after the read loop) the empty
`_PARTS` sentinel. -/
def splitEntries (c : Nat) (l : Bytes) : List (Name × Bytes) :=
  chunkWrites c l ++ [(sentinelName, [])]

/-- `Path(f"{path.parent}/{path.name}.parts")`: the chunk-group directory
sitting beside the file at `p`. -/
def partsDirOf (p : Fpath) : Fpath := p.dropLast ++ [p.getLastD [] ++ partsSuffix]

/-- `SinaraArchive._split_file(path, chunk_size)` as a filesystem
transformer: create the sibling `.parts` directory, read the file at `p`
and write its chunks, then `touch()` the sentinel.  Each chunk file is
opened with `open(..., 'wb')`, so a pre-existing entry at a chunk path
is overwritten (`writeFile`), while `touch()` leaves a pre-existing
sentinel entry unchanged (`touchFile`).  If a plain file occupies the
`.parts` path itself, `mkdir(..., exist_ok=True)` raises
`FileExistsError` before anything is read or written, and the aborted
call leaves the tree unchanged (the raised error then propagates out of
the enclosing pack).  When the file at `p` does not exist the read loop
never starts (`open(p, 'rb')` raises after creating only the — here
invisible — empty directory). -/
def SinaraArchive_split_file (t : Tree) (p : Fpath) (c : Nat) : Tree :=
  match lookupT t p with
  | none => t
  | some content =>
      if lookupT t (partsDirOf p) = none then
        touchFile
          ((chunkWrites c content).foldl
            (fun acc nb => writeFile acc (partsDirOf p ++ [nb.1]) nb.2) t)
          (partsDirOf p ++ [sentinelName])
      else t

/-- `".parts"` string-suffix test (`str.endswith(".parts")`). -/
def endsParts (n : Name) : Bool := decide (partsSuffix <:+ n)

/-- The walk filter of `pack_files_from_tmp_to_spark_df`:
`not x.name.endswith(".parts") and not str(x.parent).endswith(".parts")`.
The parent test looks only at the immediate parent component. -/
def walkKeep (p : Fpath) : Bool :=
  !(endsParts (p.getLastD [])) && !(endsParts (p.dropLast.getLastD []))

/-- The pre-chunking pass of `pack_files_from_tmp_to_spark_df`: take the
`pathlist` snapshot (the walk filter applied to the tree), then split each
file whose size strictly exceeds `ROW_SIZE`, with chunk size `ROW_SIZE`
itself. -/
def packSplitPass (R : Nat) (t : Tree) : Tree :=
  (t.filter fun e => walkKeep e.1).foldl
    (fun acc e => if R < e.2.length then SinaraArchive_split_file acc e.1 R else acc) t

/-- `total_size`: the sum of the sizes of the files in the `pathlist`
snapshot (computed before any splitting, over the same filtered walk). -/
def totalSizeOf (t : Tree) : Nat :=
  ((t.filter fun e => walkKeep e.1).map fun e => e.2.length).sum

/-- The partition count:
`partitions = int(total_size / BLOCK_SIZE) if int(total_size / BLOCK_SIZE) > threads else threads`
with `threads = cores * 3`.  The Python `/` is IEEE-754 true division;
this model uses the exact floor division, which agrees with
`int(total_size / BLOCK_SIZE)` exactly when `totalSize < 2 ^ 53`: in that
range the true quotient `q` lies below `2 ^ 53`, every integer `k ≤ q` is
representable, and a rounding step past the next integer would need
`1 / blockSize ≤ ulp(q) / 2`, i.e. `2 ^ 53 ≤ blockSize * q ≤ totalSize`.
Beyond `2 ^ 53` the two computations diverge (see `roundToDouble` and the
C5 counterexample), and at sizes past the double range the Python
division raises `OverflowError`. -/
def partitionsFor (totalSize blockSize cores : Nat) : Nat :=
  let threads := cores * 3
  if totalSize / blockSize > threads then totalSize / blockSize else threads

/-- Fuel-indexed count of the bits of `n` beyond the 53-bit double
mantissa (the fuel is irrelevant once it exceeds the excess bit count). -/
def excessBitsF : Nat → Nat → Nat
  | 0, _ => 0
  | fuel + 1, n => if n < 2 ^ 53 then 0 else excessBitsF fuel (n / 2) + 1

/-- The number of low-order bits an IEEE-754 double must drop to
represent `n` (exact for every `n < 2 ^ 1153`, far past the double
overflow threshold). -/
def excessBits (n : Nat) : Nat := excessBitsF 1100 n

/-- The value of the IEEE-754 binary64 number nearest to the integer `n`
(round to nearest, ties to even — the rounding of CPython's correctly
rounded `int / int` true division, at divisor 1): the mantissa is the top
53 bits of `n`, and the dropped remainder rounds down, up, or to the even
mantissa on a tie. -/
def roundToDouble (n : Nat) : Nat :=
  let e := excessBits n
  let m := n / 2 ^ e
  let r := n % 2 ^ e
  let m' :=
    if 2 * r < 2 ^ e then m
    else if 2 ^ e < 2 * r then m + 1
    else if m % 2 = 0 then m else m + 1
  m' * 2 ^ e

/-- `partitions = int(total_size / BLOCK_SIZE) ...` at `BLOCK_SIZE = 1`
with the float semantics spelled out: `total_size / 1` is the correctly
rounded double nearest to `total_size`, and `int` truncation of that
integer-valued double returns its value. -/
def partitionsFloatOne (totalSize cores : Nat) : Nat :=
  let threads := cores * 3
  let byBlock := roundToDouble totalSize
  if byBlock > threads then byBlock else threads

/-- The `relPath` column: `regexp_replace(path, 'file:' + tmp_entity_dir, '')`
applied to the loaded absolute URI `file:<dir>/<relative path>`.  The
pattern occurs exactly once, as the leading prefix, so the replacement
leaves the `/`-prefixed relative path. -/
def relOf (p : Fpath) : Name := (p.map fun n => '/' :: n).flatten

/-- The row set of `pack_files_from_tmp_to_spark_df` after the split pass:
every file under the directory is loaded (recursive lookup, glob `*`),
rows with `length > ROW_SIZE` are filtered out, and each kept row carries
`(relPath, content)`. -/
def packRows (R : Nat) (t : Tree) : List (Name × Bytes) :=
  (t.filter fun e => decide (e.2.length ≤ R)).map fun e => (relOf e.1, e.2)

/-- `pack_files_from_tmp_to_spark_df` (row content; the partition count
does not change the row set). -/
def pack_files_from_tmp_to_spark_df (R : Nat) (t : Tree) : List (Name × Bytes) :=
  packRows R (packSplitPass R t)

/-- Python `str.strip('/')`: remove leading and trailing `'/'`
characters. -/
def stripSlashes (n : Name) : Name :=
  ((n.dropWhile fun c => decide (c = '/')).reverse.dropWhile fun c => decide (c = '/')).reverse

/-- Split a relative path string at `'/'` separators into its components
(Python `str.split('/')` semantics, as realised by the filesystem when
the path `os.path` joins from `tmp` and `rel` is created with
`os.makedirs` + `open`). -/
def splitComps (n : Name) : Fpath :=
  match n with
  | [] => [[]]
  | c :: rest =>
    if c = '/' then [] :: splitComps rest
    else
      match splitComps rest with
      | [] => [[c]]
      | comp :: comps => (c :: comp) :: comps

/-- `SinaraArchive_save_file(file_col, tmp_entity_dir)`: write the row
content at `tmp/relPath.strip('/')` (creating directories as needed). -/
def SinaraArchive_save_file (t : Tree) (row : Name × Bytes) : Tree :=
  writeFile t (splitComps (stripSlashes row.1)) row.2

/-- `df.foreach(save_file)`: write every row into an (initially empty)
destination directory, in the order the engine delivers them. -/
def writeRows (rows : List (Name × Bytes)) : Tree :=
  rows.foldl SinaraArchive_save_file []

/-- The (proper) prefixes of a file path: the directories the file lies
in, the destination root `[]` included. -/
def prefixesOf (p : Fpath) : List Fpath := (List.range p.length).map fun k => p.take k

/-- All directories existing under the tree. -/
def dirsOf (t : Tree) : List Fpath := ((t.map fun e => prefixesOf e.1).flatten).dedup

/-- `[x for x in Path(path).glob('**/*.parts') if x.is_dir()]`: the
directories whose name ends with `".parts"`. -/
def partsDirs (t : Tree) : List Fpath :=
  (dirsOf t).filter fun d => endsParts (d.getLastD [])

/-- Python `Path(name).stem` for a directory name that ends in `".parts"`
(the only names `_join_parts` applies it to): the name with the
`".parts"` suffix removed.  (Python treats the bare name `".parts"` as a
dotfile with no suffix; that case never arises here, as the scan feeds
`stem` only names of the form `<file>.parts` with `<file>` non-empty.) -/
def stemOf (n : Name) : Name := n.take (n.length - partsSuffix.length)

/-- `glob('part-*')` name test. -/
def startsPart (n : Name) : Bool := decide (partPre <+: n)

/-- The names of the `part-*` files lying directly in directory `d`. -/
def partNamesIn (t : Tree) (d : Fpath) : List Name :=
  (t.filter fun e => decide (e.1.dropLast = d) && startsPart (e.1.getLastD [])).map
    fun e => e.1.getLastD []

/-- Python `sorted(...)` on the chunk file paths: a stable sort by the
lexicographic string order (all paths share the directory prefix, so this
is the lexicographic order of the file names). -/
def sortNames (l : List Name) : List Name := List.insertionSort (· ≤ ·) l

/-- The bytes `_join_parts` writes for one chunk group: the contents of
the `part-*` files of `d`, concatenated in sorted name order. -/
def joinGroup (t : Tree) (d : Fpath) : Bytes :=
  ((sortNames (partNamesIn t d)).map fun n => (lookupT t (d ++ [n])).getD []).flatten

/-- `shutil.rmtree(parts_dir)`: remove every entry lying under `d`. -/
def removeTreeDir (t : Tree) (d : Fpath) : Tree :=
  t.filter fun e => !(decide (d <+: e.1))

/-- `SinaraArchive._join_parts(path)`: take the snapshot list of `.parts`
directories, and for each one write the rejoined file beside it (the
directory name with `".parts"` stripped) and remove the group directory.
No `_PARTS` sentinel check is performed.  (The source writes the joined
file before the `rmtree`; the written path is never inside the group
directory, so computing the content first is the same transformation.) -/
def SinaraArchive_join_parts (t : Tree) : Tree :=
  (partsDirs t).foldl
    (fun acc d =>
      writeFile (removeTreeDir acc d) (d.dropLast ++ [stemOf (d.getLastD [])]) (joinGroup acc d))
    t

/-- `unpack_files_from_spark_df_to_tmp`: write all rows, then rejoin. -/
def unpack_files_from_spark_df_to_tmp (rows : List (Name × Bytes)) : Tree :=
  SinaraArchive_join_parts (writeRows rows)

/-- The on-disk chunk group `_split_file` leaves in directory `d` for a
file with content `l` and chunk size `c`: the chunk and sentinel entries,
as a subtree rooted at `d`. -/
def groupTreeOf (d : Fpath) (c : Nat) (l : Bytes) : Tree :=
  (splitEntries c l).map fun nb => (d ++ [nb.1], nb.2)

/-- The inverse of `relOf` up to the stripped leading slash: the relative
path string of `p` (components joined by `'/'`). -/
def joinComps : Fpath → Name
  | [] => []
  | [n] => n
  | n :: rest => n ++ '/' :: joinComps rest

/-- A 10001-byte file content (10000 zero bytes followed by one byte 1):
the smallest shape of file that `_split_file` with chunk size 1 cuts into
chunks whose `part-NNNNN` names escape the fixed 4-digit format. -/
def cexContent : Bytes := List.replicate 10000 0 ++ [1]

/-- A chunk-group directory name used in concrete counterexamples. -/
def cexDir : Fpath := ["g.parts".data]

/-- The filesystem entries `_split_file` adds when the pack pass splits
the oversized file `e` with chunk size `R`. -/
def chunkEntriesOf (R : Nat) (e : Fpath × Bytes) : Tree :=
  groupTreeOf (partsDirOf e.1) R e.2

/-- A two-file source tree used in concrete checks: file `a` below and
file `b` above a row-size threshold of 2. -/
def wtree : Tree := [([['a']], [9]), ([['b']], [1, 2, 3])]

/-- A source tree containing a directory literally named `y.parts`
holding one file `a`. -/
def c1tree : Tree := [(["y.parts".data, ['a']], [7])]

/-- A chunk group `f.parts` holding two chunks and no `_PARTS`
sentinel. -/
def c4tree : Tree :=
  [(["f.parts".data, "part-0000".data], [1]),
   (["f.parts".data, "part-0001".data], [2])]

/-- A pack source tree holding the file `x` and a stale chunk file
`x.parts/part-0000` left over from an earlier run. -/
def c10tree : Tree :=
  [([['x']], [5, 6]), (["x.parts".data, "part-0000".data], [42])]

/-- Distinct file paths: the tree is a well-formed finite map. -/
@[reducible] def nodupKeys (t : Tree) : Prop := (t.map Prod.fst).Nodup

/-- A usable file/directory name component: non-empty, without a path
separator. -/
@[reducible] def plainComp (n : Name) : Prop := n ≠ [] ∧ '/' ∉ n

/-- A source-tree name component: a usable component that moreover does
not end in `".parts"`. -/
@[reducible] def validComp (n : Name) : Prop := plainComp n ∧ ¬ (partsSuffix <:+ n)

/-- A valid source file path: non-empty, all components valid. -/
@[reducible] def validPath (p : Fpath) : Prop := p ≠ [] ∧ ∀ n ∈ p, validComp n

/-- A valid source tree: distinct file paths, no file path a prefix of
another (no file is also a directory), and every path valid. -/
@[reducible] def validTree (t : Tree) : Prop :=
  (t.map Prod.fst).Nodup ∧
  (∀ e ∈ t, validPath e.1) ∧
  ∀ e ∈ t, ∀ f ∈ t, e.1 <+: f.1 → e.1 = f.1

/-! ### Basic properties of the chunk read loop -/

theorem splitChunksF_congr : ∀ f₁ f₂ c l, l.length < f₁ → l.length < f₂ →
    splitChunksF f₁ c l = splitChunksF f₂ c l := by
  intro f₁
  induction f₁ with
  | zero => intro f₂ c l h₁ h₂; omega
  | succ f ih =>
    intro f₂ c l h₁ h₂
    match f₂, h₂ with
    | g + 1, h₂ =>
      simp only [splitChunksF]
      split
      · rfl
      · rename_i hne
        push_neg at hne
        have hc : 0 < c := Nat.pos_of_ne_zero hne.1
        have hl : 0 < l.length := List.length_pos.mpr hne.2
        have hd : (l.drop c).length < f := by
          simp only [List.length_drop]; omega
        have hd' : (l.drop c).length < g := by
          simp only [List.length_drop]; omega
        rw [ih g c (l.drop c) hd hd']

theorem splitChunks_eq (c : Nat) (l : Bytes) :
    splitChunks c l = if c = 0 ∨ l = [] then [] else l.take c :: splitChunks c (l.drop c) := by
  show splitChunksF (l.length + 1) c l = _
  simp only [splitChunksF]
  split
  · rfl
  · rename_i hne
    push_neg at hne
    have hc : 0 < c := Nat.pos_of_ne_zero hne.1
    have hl : 0 < l.length := List.length_pos.mpr hne.2
    congr 1
    exact splitChunksF_congr _ _ _ _ (by simp only [List.length_drop]; omega)
      (by simp only [List.length_drop]; omega)

theorem splitChunks_nil (c : Nat) : splitChunks c [] = [] := by
  rw [splitChunks_eq]; simp

/-- Recursion principle following the structure of the read loop. -/
theorem splitChunks_rec {c : Nat} (hc : 0 < c) {P : Bytes → Prop} (h0 : P [])
    (hstep : ∀ l : Bytes, l ≠ [] → P (l.drop c) → P l) : ∀ l, P l := by
  have key : ∀ n, ∀ l : Bytes, l.length ≤ n → P l := by
    intro n
    induction n with
    | zero =>
      intro l hl
      have : l = [] := by
        cases l with
        | nil => rfl
        | cons a as => simp at hl
      simpa [this] using h0
    | succ n ih =>
      intro l hl
      by_cases hnil : l = []
      · simpa [hnil] using h0
      · refine hstep l hnil (ih _ ?_)
        have : 0 < l.length := List.length_pos.mpr hnil
        simp only [List.length_drop]; omega
  exact fun l => key l.length l le_rfl

/-- Concatenating the chunks in production order restores the file. -/
theorem splitChunks_flatten {c : Nat} (hc : 0 < c) (l : Bytes) :
    (splitChunks c l).flatten = l := by
  induction l using splitChunks_rec hc with
  | h0 => simp [splitChunks_nil]
  | hstep l hne ih =>
    rw [splitChunks_eq]
    simp only [hc.ne', hne, or_self, if_false, List.flatten_cons, ih,
      List.take_append_drop]

/-- The number of chunks is `⌈size / chunkSize⌉`. -/
theorem splitChunks_length {c : Nat} (hc : 0 < c) (l : Bytes) :
    (splitChunks c l).length = (l.length + c - 1) / c := by
  induction l using splitChunks_rec hc with
  | h0 => simp [splitChunks_nil, Nat.div_eq_of_lt, hc]
  | hstep l hne ih =>
    rw [splitChunks_eq]
    have hl : 0 < l.length := List.length_pos.mpr hne
    simp only [hc.ne', hne, or_self, if_false, List.length_cons, ih, List.length_drop]
    rcases Nat.le_total l.length c with hle | hle
    · have e₁ : l.length - c + c - 1 = c - 1 := by omega
      have e₂ : l.length + c - 1 = (l.length - 1) + c := by omega
      rw [e₁, e₂, Nat.add_div_right _ hc, Nat.div_eq_of_lt (by omega),
        Nat.div_eq_of_lt (by omega)]
    · have e₁ : l.length - c + c - 1 = l.length - 1 := by omega
      have e₂ : l.length + c - 1 = (l.length - 1) + c := by omega
      rw [e₁, e₂, Nat.add_div_right _ hc]

/-- Every chunk is non-empty and no larger than the chunk size. -/
theorem splitChunks_sizes {c : Nat} (hc : 0 < c) (l : Bytes) :
    ∀ b ∈ splitChunks c l, b ≠ [] ∧ b.length ≤ c := by
  induction l using splitChunks_rec hc with
  | h0 => simp [splitChunks_nil]
  | hstep l hne ih =>
    rw [splitChunks_eq]
    simp only [hc.ne', hne, or_self, if_false, List.mem_cons]
    rintro b (rfl | hb)
    · refine ⟨?_, by simp⟩
      intro h
      rcases List.take_eq_nil_iff.mp h with h' | h'
      · exact hc.ne' h'
      · exact hne h'
    · exact ih b hb

/-- All chunks except possibly the last have length exactly the chunk
size. -/
theorem splitChunks_full {c : Nat} (hc : 0 < c) (l : Bytes) :
    ∀ i, i + 1 < (splitChunks c l).length → ((splitChunks c l).getD i []).length = c := by
  induction l using splitChunks_rec hc with
  | h0 => simp [splitChunks_nil]
  | hstep l hne ih =>
    intro i hi
    rw [splitChunks_eq] at hi ⊢
    simp only [hc.ne', hne, or_self, if_false, List.length_cons] at hi ⊢
    cases i with
    | zero =>
      have hdrop : l.drop c ≠ [] := by
        intro h
        rw [h, splitChunks_nil] at hi
        simp at hi
      have hlen : c < l.length := by
        by_contra hcon
        exact hdrop (List.drop_eq_nil_of_le (by omega))
      rw [List.getD_cons_zero, List.length_take]
      omega
    | succ i =>
      rw [List.getD_cons_succ]
      exact ih i (by omega)

/-- Chunk size 1 cuts the file into its single bytes. -/
theorem splitChunks_one (l : Bytes) : splitChunks 1 l = l.map fun x => [x] := by
  induction l with
  | nil => simp [splitChunks_nil]
  | cons x xs ih => rw [splitChunks_eq]; simp [ih]

/-! ### The decimal chunk numbering and its lexicographic order -/

theorem natCharsF_congr : ∀ f₁ f₂ n, n < f₁ → n < f₂ →
    natCharsF f₁ n = natCharsF f₂ n := by
  intro f₁
  induction f₁ with
  | zero => intro f₂ n h₁ h₂; omega
  | succ f ih =>
    intro f₂ n h₁ h₂
    match f₂, h₂ with
    | g + 1, h₂ =>
      simp only [natCharsF]
      split
      · rfl
      · rename_i hge
        rw [ih g (n / 10) (by omega) (by omega)]

theorem natChars_eq (n : Nat) :
    natChars n = if n < 10 then [digitChar n]
      else natChars (n / 10) ++ [digitChar (n % 10)] := by
  show natCharsF (n + 1) n = _
  simp only [natCharsF]
  split
  · rfl
  · rename_i hge
    congr 1
    exact natCharsF_congr _ _ _ (by omega) (by omega)

theorem natChars_lt10 {n : Nat} (h : n < 10) : natChars n = [digitChar n] := by
  rw [natChars_eq]; simp [h]

theorem natChars_lt100 {n : Nat} (h1 : 10 ≤ n) (h2 : n < 100) :
    natChars n = [digitChar (n / 10), digitChar (n % 10)] := by
  rw [natChars_eq]
  simp only [Nat.not_lt.mpr h1, if_false]
  rw [natChars_lt10 (by omega)]
  rfl

theorem natChars_lt1000 {n : Nat} (h1 : 100 ≤ n) (h2 : n < 1000) :
    natChars n = [digitChar (n / 100), digitChar (n / 10 % 10), digitChar (n % 10)] := by
  rw [natChars_eq]
  simp only [Nat.not_lt.mpr (show 10 ≤ n by omega), if_false]
  rw [natChars_lt100 (by omega) (by omega)]
  have e : n / 10 / 10 = n / 100 := by
    rw [Nat.div_div_eq_div_mul]
  have e2 : n / 10 % 10 = n / 10 % 10 := rfl
  simp [e]

theorem natChars_lt10000 {n : Nat} (h1 : 1000 ≤ n) (h2 : n < 10000) :
    natChars n = [digitChar (n / 1000), digitChar (n / 100 % 10),
      digitChar (n / 10 % 10), digitChar (n % 10)] := by
  rw [natChars_eq]
  simp only [Nat.not_lt.mpr (show 10 ≤ n by omega), if_false]
  rw [natChars_lt1000 (by omega) (by omega)]
  have e1 : n / 10 / 100 = n / 1000 := by rw [Nat.div_div_eq_div_mul]
  have e2 : n / 10 / 10 = n / 100 := by rw [Nat.div_div_eq_div_mul]
  simp [e1, e2]

/-- For indices below 10000 the padded form is exactly the four decimal
digits. -/
theorem pad04_eq {n : Nat} (h : n < 10000) :
    pad04 n = [digitChar (n / 1000), digitChar (n / 100 % 10),
      digitChar (n / 10 % 10), digitChar (n % 10)] := by
  rcases Nat.lt_or_ge n 10 with h1 | h1
  · rw [pad04, natChars_lt10 h1]
    have e0 : n / 1000 = 0 := Nat.div_eq_of_lt (by omega)
    have e1 : n / 100 % 10 = 0 := by rw [Nat.div_eq_of_lt (by omega)]
    have e2 : n / 10 % 10 = 0 := by rw [Nat.div_eq_of_lt (by omega)]
    have e3 : n % 10 = n := Nat.mod_eq_of_lt h1
    simp [e0, e1, e2, e3, List.replicate, digitChar]
  rcases Nat.lt_or_ge n 100 with h2 | h2
  · rw [pad04, natChars_lt100 h1 h2]
    have e0 : n / 1000 = 0 := Nat.div_eq_of_lt (by omega)
    have e1 : n / 100 % 10 = 0 := by rw [Nat.div_eq_of_lt (by omega)]
    have e2 : n / 10 % 10 = n / 10 := Nat.mod_eq_of_lt (by omega)
    simp [e0, e1, e2, List.replicate, digitChar]
  rcases Nat.lt_or_ge n 1000 with h3 | h3
  · rw [pad04, natChars_lt1000 h2 h3]
    have e0 : n / 1000 = 0 := Nat.div_eq_of_lt (by omega)
    have e1 : n / 100 % 10 = n / 100 := Nat.mod_eq_of_lt (by omega)
    simp [e0, e1, List.replicate, digitChar]
  · rw [pad04, natChars_lt10000 h3 h]
    simp [List.replicate]

theorem pad04_length_eq_four {n : Nat} (h : n < 10000) : (pad04 n).length = 4 := by
  rw [pad04_eq h]; rfl

theorem digitChar_lt_digitChar {a b : Nat} (hab : a < b) (hb : b ≤ 9) :
    digitChar a < digitChar b := by
  have ha : a ≤ 8 := by omega
  unfold digitChar
  interval_cases a <;> interval_cases b <;> first | rfl | decide

/-- Lexicographic comparison of the four-digit forms agrees with the
numeric order below 10000. -/
theorem pad04_lt {i j : Nat} (hij : i < j) (hj : j < 10000) :
    List.Lex (· < ·) (pad04 i) (pad04 j) := by
  have hi : i < 10000 := by omega
  rw [pad04_eq hi, pad04_eq hj]
  have d3 : i / 1000 ≤ j / 1000 := Nat.div_le_div_right (le_of_lt hij)
  rcases eq_or_lt_of_le d3 with d3e | d3l
  swap
  · exact List.Lex.rel (digitChar_lt_digitChar d3l (by omega))
  rw [d3e]
  apply List.Lex.cons
  have i100 := Nat.div_add_mod (i / 100) 10
  have j100 := Nat.div_add_mod (j / 100) 10
  have ei : i / 100 / 10 = i / 1000 := by rw [Nat.div_div_eq_div_mul]
  have ej : j / 100 / 10 = j / 1000 := by rw [Nat.div_div_eq_div_mul]
  rw [ei] at i100; rw [ej] at j100
  have d2 : i / 100 ≤ j / 100 := Nat.div_le_div_right (le_of_lt hij)
  have d2' : i / 100 % 10 ≤ j / 100 % 10 := by omega
  rcases eq_or_lt_of_le d2' with d2e | d2l
  swap
  · exact List.Lex.rel (digitChar_lt_digitChar d2l (by omega))
  rw [d2e]
  apply List.Lex.cons
  have h100 : i / 100 = j / 100 := by omega
  have i10 := Nat.div_add_mod (i / 10) 10
  have j10 := Nat.div_add_mod (j / 10) 10
  have ei' : i / 10 / 10 = i / 100 := by rw [Nat.div_div_eq_div_mul]
  have ej' : j / 10 / 10 = j / 100 := by rw [Nat.div_div_eq_div_mul]
  rw [ei'] at i10; rw [ej'] at j10
  have d1 : i / 10 ≤ j / 10 := Nat.div_le_div_right (le_of_lt hij)
  have d1' : i / 10 % 10 ≤ j / 10 % 10 := by omega
  rcases eq_or_lt_of_le d1' with d1e | d1l
  swap
  · exact List.Lex.rel (digitChar_lt_digitChar d1l (by omega))
  rw [d1e]
  apply List.Lex.cons
  have h10 : i / 10 = j / 10 := by omega
  have i1 := Nat.div_add_mod i 10
  have j1 := Nat.div_add_mod j 10
  have d0 : i % 10 < j % 10 := by omega
  exact List.Lex.rel (digitChar_lt_digitChar d0 (by omega))

/-- Appending a common prefix preserves the lexicographic order. -/
theorem lex_append_left {r : Char → Char → Prop} {a b : Name} (s : Name)
    (h : List.Lex r a b) : List.Lex r (s ++ a) (s ++ b) := by
  induction s with
  | nil => simpa using h
  | cons x xs ih => exact List.Lex.cons ih

/-- Chunk file names sort by index below 10000: the code's fixed-width
assumption is valid in that range. -/
theorem partName_lt {i j : Nat} (hij : i < j) (hj : j < 10000) :
    partName i < partName j :=
  lex_append_left partPre (pad04_lt hij hj)

theorem partName_inj {i j : Nat} (hi : i < 10000) (hj : j < 10000)
    (h : partName i = partName j) : i = j := by
  rcases Nat.lt_trichotomy i j with hlt | heq | hgt
  · exact absurd h (ne_of_lt (partName_lt hlt hj))
  · exact heq
  · exact absurd h.symm (ne_of_lt (partName_lt hgt hi))

theorem pad04_length_10000 : (pad04 10000).length = 5 := by decide

theorem partName_inj10001 {i j : Nat} (hi : i ≤ 10000) (hj : j ≤ 10000)
    (h : partName i = partName j) : i = j := by
  rcases Nat.lt_or_ge i 10000 with hi' | hi'
  · rcases Nat.lt_or_ge j 10000 with hj' | hj'
    · exact partName_inj hi' hj' h
    · exfalso
      have hj'' : j = 10000 := by omega
      have hlen := congrArg List.length h
      rw [hj''] at hlen
      simp only [partName, List.length_append, pad04_length_eq_four hi',
        pad04_length_10000] at hlen
      omega
  · have hi'' : i = 10000 := by omega
    rcases Nat.lt_or_ge j 10000 with hj' | hj'
    · exfalso
      have hlen := congrArg List.length h
      rw [hi''] at hlen
      simp only [partName, List.length_append, pad04_length_eq_four hj',
        pad04_length_10000] at hlen
      omega
    · omega

theorem digitChar_inj {a b : Nat} (ha : a ≤ 9) (hb : b ≤ 9)
    (h : digitChar a = digitChar b) : a = b := by
  rcases Nat.lt_trichotomy a b with hlt | heq | hgt
  · exact absurd h (ne_of_lt (digitChar_lt_digitChar hlt hb))
  · exact heq
  · exact absurd h.symm (ne_of_lt (digitChar_lt_digitChar hgt ha))

theorem natChars_ne_nil (n : Nat) : natChars n ≠ [] := by
  rw [natChars_eq]
  split
  · exact List.cons_ne_nil _ _
  · exact fun hcon => List.cons_ne_nil _ _ (List.append_eq_nil.mp hcon).2

theorem concat_singleton_inj {a b : Name} {x y : Char}
    (h : a ++ [x] = b ++ [y]) : a = b ∧ x = y := by
  constructor
  · have h1 := congrArg List.dropLast h
    simpa [List.dropLast_concat] using h1
  · have h2 := congrArg (fun l => List.getLastD l ' ') h
    simpa [List.getLastD_concat] using h2

theorem append_singleton_inj {a b : Fpath} {x y : Name}
    (h : a ++ [x] = b ++ [y]) : a = b ∧ x = y := by
  constructor
  · have h1 := congrArg List.dropLast h
    simpa [List.dropLast_concat] using h1
  · have h2 := congrArg (fun l => List.getLastD l ([] : Name)) h
    simpa [List.getLastD_concat] using h2

/-- The decimal representation has no leading zeros, so it is injective
over all of `Nat`. -/
theorem natChars_inj : ∀ a b : Nat, natChars a = natChars b → a = b := by
  intro a
  induction a using Nat.strong_induction_on with
  | h a ih =>
    intro b h
    rcases Nat.lt_or_ge a 10 with ha | ha
    · rcases Nat.lt_or_ge b 10 with hb | hb
      · rw [natChars_lt10 ha, natChars_lt10 hb] at h
        exact digitChar_inj (by omega) (by omega) (by simpa using h)
      · exfalso
        rw [natChars_lt10 ha, natChars_eq, if_neg (Nat.not_lt.mpr hb)] at h
        have hlen := congrArg List.length h
        have hpos := List.length_pos.mpr (natChars_ne_nil (b / 10))
        simp only [List.length_singleton, List.length_append] at hlen
        omega
    · rcases Nat.lt_or_ge b 10 with hb | hb
      · exfalso
        rw [natChars_lt10 hb, natChars_eq, if_neg (Nat.not_lt.mpr ha)] at h
        have hlen := congrArg List.length h
        have hpos := List.length_pos.mpr (natChars_ne_nil (a / 10))
        simp only [List.length_singleton, List.length_append] at hlen
        omega
      · rw [natChars_eq, if_neg (Nat.not_lt.mpr ha),
          natChars_eq b, if_neg (Nat.not_lt.mpr hb)] at h
        obtain ⟨h1, h2⟩ := concat_singleton_inj h
        have hmod : a % 10 = b % 10 := digitChar_inj (by omega) (by omega) h2
        have hdiv : a / 10 = b / 10 :=
          ih (a / 10) (Nat.div_lt_self (by omega) (by omega)) (b / 10) h1
        omega

theorem natChars_length_succ {n : Nat} (h : 10 ≤ n) :
    (natChars n).length = (natChars (n / 10)).length + 1 := by
  rw [natChars_eq, if_neg (Nat.not_lt.mpr h), List.length_append]
  rfl

theorem natChars_length_ge5 {n : Nat} (h : 10000 ≤ n) :
    5 ≤ (natChars n).length := by
  have e1 : n / 10 / 10 = n / 100 := by rw [Nat.div_div_eq_div_mul]
  have e2 : n / 100 / 10 = n / 1000 := by rw [Nat.div_div_eq_div_mul]
  have hpos := List.length_pos.mpr (natChars_ne_nil (n / 1000 / 10))
  rw [natChars_length_succ (by omega),
    natChars_length_succ (show 10 ≤ n / 10 by omega), e1,
    natChars_length_succ (show 10 ≤ n / 100 by omega), e2,
    natChars_length_succ (show 10 ≤ n / 1000 by omega)]
  omega

theorem pad04_eq_natChars {n : Nat} (h : 10000 ≤ n) : pad04 n = natChars n := by
  unfold pad04
  have h5 := natChars_length_ge5 h
  rw [show 4 - (natChars n).length = 0 by omega]
  rfl

/-- The minimum-width-4 zero-padded decimal format is injective over all
of `Nat`: below 10000 the four digits determine the value, and at 10000
and beyond the format is the bare (injective) decimal representation,
whose length at least 5 separates it from the padded four-digit forms. -/
theorem pad04_inj {i j : Nat} (h : pad04 i = pad04 j) : i = j := by
  rcases Nat.lt_or_ge i 10000 with hi | hi
  · rcases Nat.lt_or_ge j 10000 with hj | hj
    · exact partName_inj hi hj (by unfold partName; rw [h])
    · exfalso
      have hlen := congrArg List.length h
      rw [pad04_length_eq_four hi, pad04_eq_natChars hj] at hlen
      have := natChars_length_ge5 hj
      omega
  · rcases Nat.lt_or_ge j 10000 with hj | hj
    · exfalso
      have hlen := congrArg List.length h
      rw [pad04_eq_natChars hi, pad04_length_eq_four hj] at hlen
      have := natChars_length_ge5 hi
      omega
    · rw [pad04_eq_natChars hi, pad04_eq_natChars hj] at h
      exact natChars_inj i j h

theorem partName_inj_all {i j : Nat} (h : partName i = partName j) : i = j := by
  unfold partName at h
  exact pad04_inj (List.append_cancel_left h)

/-- Chunk index 10000 sorts strictly before chunk index 9999: the
fixed-width assumption breaks at the five-digit boundary. -/
theorem partName_10000_lt_9999 : partName 10000 < partName 9999 := by
  decide

theorem sentinelName_ne_partName (i : Nat) : sentinelName ≠ partName i := by
  intro h
  have : sentinelName.head? = (partName i).head? := by rw [h]
  simp [sentinelName, partName, partPre] at this

theorem startsPart_partName (i : Nat) : startsPart (partName i) = true := by
  simp [startsPart, partName]

theorem startsPart_sentinel : startsPart sentinelName = false := by decide

/-! ### The filesystem as a finite map -/

theorem lookupT_append_left {t : Tree} {p : Fpath} {b : Bytes}
    (h : lookupT t p = some b) (u : Tree) : lookupT (t ++ u) p = some b := by
  induction t with
  | nil => simp [lookupT] at h
  | cons e rest ih =>
    rw [lookupT] at h
    rw [List.cons_append, lookupT]
    split
    · rwa [if_pos (by assumption)] at h
    · rw [if_neg (by assumption)] at h
      exact ih h

theorem lookupT_append_right {t : Tree} {p : Fpath}
    (h : ∀ e ∈ t, e.1 ≠ p) (u : Tree) : lookupT (t ++ u) p = lookupT u p := by
  induction t with
  | nil => simp
  | cons e rest ih =>
    rw [List.cons_append, lookupT, if_neg (h e (by simp))]
    exact ih fun f hf => h f (by simp [hf])

theorem lookupT_mem {t : Tree} {p : Fpath} {b : Bytes}
    (h : lookupT t p = some b) : (p, b) ∈ t := by
  induction t with
  | nil => simp [lookupT] at h
  | cons e rest ih =>
    rw [lookupT] at h
    split at h
    · rename_i he
      have : e = (p, b) := by
        obtain ⟨e1, e2⟩ := e
        simp_all
      simp [this]
    · exact List.mem_cons_of_mem _ (ih h)

theorem lookupT_eq_none {t : Tree} {p : Fpath}
    (h : ∀ e ∈ t, e.1 ≠ p) : lookupT t p = none := by
  induction t with
  | nil => rfl
  | cons e rest ih =>
    rw [lookupT, if_neg (h e (by simp))]
    exact ih fun f hf => h f (by simp [hf])

theorem lookupT_eq_some_of_mem {t : Tree} (hnd : nodupKeys t) :
    ∀ e ∈ t, lookupT t e.1 = some e.2 := by
  induction t with
  | nil => simp
  | cons f rest ih =>
    simp only [nodupKeys, List.map_cons, List.nodup_cons, List.mem_map] at hnd
    intro e he
    rcases List.mem_cons.mp he with rfl | he'
    · rw [lookupT, if_pos rfl]
    · rw [lookupT]
      have hne : f.1 ≠ e.1 := by
        intro hcon
        exact hnd.1 ⟨e, he', hcon.symm⟩
      rw [if_neg hne]
      exact ih hnd.2 e he'

theorem mem_of_nodupKeys_lookupT {t : Tree} {p : Fpath} {b : Bytes}
    (h : lookupT t p = some b) : (p, b) ∈ t := lookupT_mem h

/-- On trees with distinct keys, lookup only depends on the entry set. -/
theorem lookupT_perm {t t' : Tree} (hnd : nodupKeys t) (hperm : t.Perm t')
    (p : Fpath) : lookupT t p = lookupT t' p := by
  have hnd' : nodupKeys t' := (hperm.map Prod.fst).nodup_iff.mp hnd
  cases h : lookupT t p with
  | none =>
    have hall : ∀ e ∈ t, e.1 ≠ p := by
      intro e he hcon
      have := lookupT_eq_some_of_mem hnd e he
      rw [hcon, h] at this
      exact Option.noConfusion this
    have : ∀ e ∈ t', e.1 ≠ p := fun e he => hall e (hperm.mem_iff.mpr he)
    rw [lookupT_eq_none this]
  | some b =>
    have hmem : (p, b) ∈ t' := hperm.mem_iff.mp (lookupT_mem h)
    exact (lookupT_eq_some_of_mem hnd' _ hmem).symm

/-- A fresh write is a plain append. -/
theorem writeFile_fresh {t : Tree} {p : Fpath} (h : ∀ e ∈ t, e.1 ≠ p)
    (b : Bytes) : writeFile t p b = t ++ [(p, b)] := by
  unfold writeFile
  congr 1
  apply List.filter_eq_self.mpr
  intro e he
  simpa using h e he

/-- An overwrite at `p` does not change the lookup at any other path. -/
theorem lookupT_writeFile_ne {t : Tree} {p q : Fpath} (b : Bytes) (h : q ≠ p) :
    lookupT (writeFile t p b) q = lookupT t q := by
  unfold writeFile
  induction t with
  | nil =>
    simp only [List.filter_nil, List.nil_append, lookupT]
    rw [if_neg fun hc => h hc.symm]
  | cons e rest ih =>
    by_cases hep : e.1 = p
    · rw [List.filter_cons_of_neg (by simp [hep]), ih]
      have : lookupT (e :: rest) q = lookupT rest q := by
        simp only [lookupT]
        rw [if_neg (by rw [hep]; exact fun hc => h hc.symm)]
      rw [this]
    · rw [List.filter_cons_of_pos (by simp [hep]), List.cons_append]
      simp only [lookupT]
      rw [ih]

theorem mem_writeFile {t : Tree} {p : Fpath} {b : Bytes} {x : Fpath × Bytes}
    (h : x ∈ writeFile t p b) : x ∈ t ∨ x = (p, b) := by
  unfold writeFile at h
  rcases List.mem_append.mp h with h | h
  · exact Or.inl (List.mem_of_mem_filter h)
  · exact Or.inr (List.mem_singleton.mp h)

theorem lookupT_append_singleton_ne {p q : Fpath} (b : Bytes) (h : q ≠ p) :
    ∀ t : Tree, lookupT (t ++ [(p, b)]) q = lookupT t q := by
  intro t
  induction t with
  | nil =>
    show (if p = q then some b else lookupT [] q) = lookupT [] q
    rw [if_neg fun hc => h hc.symm]
  | cons e rest ih =>
    rw [List.cons_append]
    simp only [lookupT]
    rw [ih]

/-- A touch at an absent path is a plain append of an empty file. -/
theorem touchFile_absent {t : Tree} {p : Fpath} (h : lookupT t p = none) :
    touchFile t p = t ++ [(p, [])] := by
  unfold touchFile
  rw [h]

/-- A touch does not change the lookup at any other path. -/
theorem lookupT_touchFile_ne {t : Tree} {p q : Fpath} (h : q ≠ p) :
    lookupT (touchFile t p) q = lookupT t q := by
  unfold touchFile
  cases lookupT t p with
  | some b => rfl
  | none => exact lookupT_append_singleton_ne [] h t

theorem mem_touchFile {t : Tree} {p : Fpath} {x : Fpath × Bytes}
    (h : x ∈ touchFile t p) : x ∈ t ∨ x = (p, []) := by
  unfold touchFile at h
  cases hl : lookupT t p with
  | some b =>
    rw [hl] at h
    exact Or.inl h
  | none =>
    rw [hl] at h
    rcases List.mem_append.mp h with h | h
    · exact Or.inl h
    · exact Or.inr (List.mem_singleton.mp h)

/-- When every written path is absent from the base tree and the written
paths are pairwise distinct, the write loop of `_split_file` is a plain
append of its entries. -/
theorem writeFile_foldl_fresh (d : Fpath) :
    ∀ (E : List (Name × Bytes)) (t : Tree),
      (∀ nb ∈ E, ∀ e ∈ t, e.1 ≠ d ++ [nb.1]) → (E.map Prod.fst).Nodup →
      E.foldl (fun acc nb => writeFile acc (d ++ [nb.1]) nb.2) t =
        t ++ E.map fun nb => (d ++ [nb.1], nb.2) := by
  intro E
  induction E with
  | nil => intro t _ _; simp
  | cons nb rest ih =>
    intro t hfresh hnd
    simp only [List.map_cons, List.nodup_cons] at hnd
    have hfresh' : ∀ mb ∈ rest, ∀ e ∈ t ++ [(d ++ [nb.1], nb.2)],
        e.1 ≠ d ++ [mb.1] := by
      intro mb hmb e he
      rcases List.mem_append.mp he with he | he
      · exact hfresh mb (List.mem_cons_of_mem _ hmb) e he
      · rcases List.mem_singleton.mp he with rfl
        intro hcon
        have hx : nb.1 = mb.1 := (append_singleton_inj hcon).2
        exact hnd.1 (by rw [hx]; exact List.mem_map.mpr ⟨mb, hmb, rfl⟩)
    rw [List.foldl_cons,
      writeFile_fresh (fun e he => hfresh nb (List.mem_cons_self _ _) e he) nb.2,
      ih (t ++ [(d ++ [nb.1], nb.2)]) hfresh' hnd.2, List.append_assoc]
    rfl

/-- The write loop of `_split_file` does not change the lookup at any
path outside the written set. -/
theorem lookupT_writeFold_out (d : Fpath) :
    ∀ (E : List (Name × Bytes)) (t : Tree) (q : Fpath),
      (∀ nb ∈ E, q ≠ d ++ [nb.1]) →
      lookupT (E.foldl (fun acc nb => writeFile acc (d ++ [nb.1]) nb.2) t) q =
        lookupT t q := by
  intro E
  induction E with
  | nil => intro t q _; rfl
  | cons nb rest ih =>
    intro t q hq
    rw [List.foldl_cons, ih _ q fun mb hmb => hq mb (List.mem_cons_of_mem _ hmb),
      lookupT_writeFile_ne nb.2 (hq nb (List.mem_cons_self _ _))]

/-- Every entry after the write loop of `_split_file` is an old entry or
one of the written ones. -/
theorem mem_writeFold (d : Fpath) :
    ∀ (E : List (Name × Bytes)) (t : Tree) (x : Fpath × Bytes),
      x ∈ E.foldl (fun acc nb => writeFile acc (d ++ [nb.1]) nb.2) t →
      x ∈ t ∨ ∃ nb ∈ E, x = (d ++ [nb.1], nb.2) := by
  intro E
  induction E with
  | nil => intro t x h; exact Or.inl h
  | cons nb rest ih =>
    intro t x h
    rw [List.foldl_cons] at h
    rcases ih _ x h with h' | ⟨mb, hmb, rfl⟩
    · rcases mem_writeFile h' with h'' | rfl
      · exact Or.inl h''
      · exact Or.inr ⟨nb, List.mem_cons_self _ _, rfl⟩
    · exact Or.inr ⟨mb, List.mem_cons_of_mem _ hmb, rfl⟩

/-! ### Sorting of chunk file names -/

/-- The sorted chunk-name list is determined by the name set: sorting any
listing order of distinct names gives the unique sorted arrangement. -/
theorem sortNames_eq_of_perm {l canon : List Name} (hperm : l.Perm canon)
    (hsorted : List.Sorted (· ≤ ·) canon) : sortNames l = canon := by
  refine List.eq_of_perm_of_sorted ?_ ?_ hsorted
  · exact (List.perm_insertionSort _ l).trans hperm
  · exact List.sorted_insertionSort _ l

/-- The canonical chunk-name list of a group with at most 10000 chunks is
sorted (strictly: the names are distinct). -/
theorem sorted_partNames {n : Nat} (hn : n ≤ 10000) :
    List.Sorted (· ≤ ·) ((List.range n).map partName) := by
  rw [List.Sorted, List.pairwise_map]
  have h : List.Pairwise (· < ·) (List.range n) := List.pairwise_lt_range n
  refine List.Pairwise.imp_of_mem ?_ h
  intro i j _ hj hij
  have : j < n := List.mem_range.mp hj
  exact le_of_lt (partName_lt hij (by omega))

/-! ### Structure of a chunk group -/

theorem enumFrom_map_eq_range_map {β : Type} : ∀ (L : List Bytes) (k : Nat)
    (f : Nat → Bytes → β),
    (List.enumFrom k L).map (fun ic => f ic.1 ic.2) =
      (List.range L.length).map fun i => f (k + i) (L.getD i []) := by
  intro L
  induction L with
  | nil => intro k f; rfl
  | cons a L ih =>
    intro k f
    rw [List.enumFrom_cons, List.length_cons, List.range_succ_eq_map]
    simp only [List.map_cons, List.map_map, List.getD_cons_zero, Nat.add_zero]
    congr 1
    rw [ih (k + 1) f]
    apply List.map_congr_left
    intro i _
    simp only [Function.comp_def, Nat.succ_eq_add_one, List.getD_cons_succ]
    congr 1
    omega

theorem enum_map_eq_range_map {β : Type} (L : List Bytes) (f : Nat → Bytes → β) :
    L.enum.map (fun ic => f ic.1 ic.2) =
      (List.range L.length).map fun i => f i (L.getD i []) := by
  rw [List.enum]
  rw [enumFrom_map_eq_range_map L 0 f]
  simp

theorem chunkWrites_eq (c : Nat) (l : Bytes) :
    chunkWrites c l =
      (List.range (splitChunks c l).length).map fun i =>
        (partName i, (splitChunks c l).getD i []) := by
  unfold chunkWrites
  exact enum_map_eq_range_map (splitChunks c l) fun i ch => (partName i, ch)

theorem chunkWrites_names (c : Nat) (l : Bytes) :
    (chunkWrites c l).map Prod.fst =
      (List.range (splitChunks c l).length).map partName := by
  rw [chunkWrites_eq]
  simp [List.map_map, Function.comp_def]

/-- The chunk file names of one read loop are pairwise distinct, for any
chunk count: the minimum-width decimal format is injective. -/
theorem chunkWrites_keys_nodup (c : Nat) (l : Bytes) :
    ((chunkWrites c l).map Prod.fst).Nodup := by
  rw [chunkWrites_names]
  exact List.Nodup.map (fun a b h => partName_inj_all h) (List.nodup_range _)

theorem splitEntries_eq (c : Nat) (l : Bytes) :
    splitEntries c l =
      ((List.range (splitChunks c l).length).map fun i =>
        (partName i, (splitChunks c l).getD i [])) ++ [(sentinelName, [])] := by
  unfold splitEntries
  rw [chunkWrites_eq]

theorem splitEntries_names (c : Nat) (l : Bytes) :
    (splitEntries c l).map Prod.fst =
      ((List.range (splitChunks c l).length).map partName) ++ [sentinelName] := by
  rw [splitEntries_eq]
  simp [List.map_map, Function.comp_def]

/-- The file names `_split_file` writes inside one group are pairwise
distinct, for any chunk count: the minimum-width decimal format is
injective and the sentinel name matches no chunk name. -/
theorem splitEntries_keys_nodup (c : Nat) (l : Bytes) :
    ((splitEntries c l).map Prod.fst).Nodup := by
  rw [splitEntries_names, List.nodup_append]
  refine ⟨?_, List.nodup_singleton _, ?_⟩
  · exact List.Nodup.map (fun a b h => partName_inj_all h) (List.nodup_range _)
  · intro x hx hx'
    rcases List.mem_map.mp hx with ⟨i, _, rfl⟩
    exact sentinelName_ne_partName i (List.mem_singleton.mp hx').symm

theorem groupTreeOf_keys (d : Fpath) (c : Nat) (l : Bytes) :
    (groupTreeOf d c l).map Prod.fst =
      ((List.range (splitChunks c l).length).map fun i => d ++ [partName i]) ++
        [d ++ [sentinelName]] := by
  unfold groupTreeOf
  rw [splitEntries_eq]
  simp [List.map_map, Function.comp_def]

theorem nodupKeys_groupTreeOf {c : Nat} {l : Bytes} (d : Fpath)
    (hn : (splitChunks c l).length ≤ 10001) : nodupKeys (groupTreeOf d c l) := by
  rw [nodupKeys, groupTreeOf_keys]
  rw [List.nodup_append]
  refine ⟨?_, by simp, ?_⟩
  · rw [List.nodup_map_iff_inj_on (List.nodup_range _)]
    intro i hi j hj hij
    have hi' : i ≤ 10000 := by have := List.mem_range.mp hi; omega
    have hj' : j ≤ 10000 := by have := List.mem_range.mp hj; omega
    exact partName_inj10001 hi' hj' (by simpa using hij)
  · intro q hq
    simp only [List.mem_map, List.mem_range] at hq
    obtain ⟨i, hi, rfl⟩ := hq
    simp only [List.mem_singleton]
    intro hcon
    exact sentinelName_ne_partName i (by simpa using hcon.symm)

theorem lookupT_groupTreeOf {c : Nat} {l : Bytes} {i : Nat} (d : Fpath)
    (hn : (splitChunks c l).length ≤ 10001) (hi : i < (splitChunks c l).length) :
    lookupT (groupTreeOf d c l) (d ++ [partName i]) =
      some ((splitChunks c l).getD i []) := by
  have hmem : (d ++ [partName i], (splitChunks c l).getD i []) ∈ groupTreeOf d c l := by
    unfold groupTreeOf
    rw [splitEntries_eq]
    simp only [List.map_append, List.mem_append, List.map_map, List.mem_map,
      List.mem_range]
    exact Or.inl ⟨i, hi, rfl⟩
  exact lookupT_eq_some_of_mem (nodupKeys_groupTreeOf d (by omega)) _ hmem

/-- `glob('part-*')` inside a mapped group subtree sees exactly the
`part-` named entries. -/
theorem partNamesIn_map_group (E : List (Name × Bytes)) (d : Fpath) :
    partNamesIn (E.map fun nb => (d ++ [nb.1], nb.2)) d =
      (E.filter fun nb => startsPart nb.1).map Prod.fst := by
  unfold partNamesIn
  rw [List.filter_map, List.map_map]
  have hq : ∀ nb ∈ E,
      ((fun e : Fpath × Bytes =>
          decide (e.1.dropLast = d) && startsPart (e.1.getLastD [])) ∘
        fun nb : Name × Bytes => (d ++ [nb.1], nb.2)) nb =
        (fun nb : Name × Bytes => startsPart nb.1) nb := by
    intro nb _
    simp [Function.comp_def, List.dropLast_concat, List.getLastD_concat]
  rw [List.filter_congr hq]
  apply List.map_congr_left
  intro nb _
  simp [Function.comp_def, List.getLastD_concat]

theorem partNamesIn_groupTreeOf (d : Fpath) (c : Nat) (l : Bytes) :
    partNamesIn (groupTreeOf d c l) d =
      (List.range (splitChunks c l).length).map partName := by
  unfold groupTreeOf
  rw [partNamesIn_map_group, splitEntries_eq, List.filter_append]
  have h1 : List.filter (fun nb : Name × Bytes => startsPart nb.1)
        ((List.range (splitChunks c l).length).map fun i =>
          (partName i, (splitChunks c l).getD i [])) =
      (List.range (splitChunks c l).length).map fun i =>
        (partName i, (splitChunks c l).getD i []) := by
    apply List.filter_eq_self.mpr
    intro nb hnb
    simp only [List.mem_map, List.mem_range] at hnb
    obtain ⟨i, _, rfl⟩ := hnb
    exact startsPart_partName i
  have h2 : List.filter (fun nb : Name × Bytes => startsPart nb.1) [(sentinelName, [])] =
      ([] : List (Name × Bytes)) := by
    simp [List.filter_cons, startsPart_sentinel]
  rw [h1, h2, List.append_nil, List.map_map]
  rfl

/-- Reading the chunks back in index order restores the file. -/
theorem range_getD_splitChunks (c : Nat) (l : Bytes) :
    (List.range (splitChunks c l).length).map (fun i => (splitChunks c l).getD i []) =
      splitChunks c l := by
  rw [← enum_map_eq_range_map (splitChunks c l) fun i ch => ch]
  exact List.enum_map_snd _

/-- Rejoining one chunk group: for at most 10000 chunks, and any listing
order of the group directory, the `part-*` names sort back into index
order and the concatenation restores the original bytes. -/
theorem joinGroup_perm_groupTree {c : Nat} (hc : 0 < c) {l : Bytes}
    (hn : (splitChunks c l).length ≤ 10000) (d : Fpath) {u : Tree}
    (hu : u.Perm (groupTreeOf d c l)) :
    sortNames (partNamesIn u d) =
      (List.range (splitChunks c l).length).map partName ∧
    joinGroup u d = l := by
  have hndG : nodupKeys (groupTreeOf d c l) := nodupKeys_groupTreeOf d (by omega)
  have hndU : nodupKeys u := ((hu.map Prod.fst).nodup_iff).mpr hndG
  have hnames : (partNamesIn u d).Perm
      ((List.range (splitChunks c l).length).map partName) := by
    rw [← partNamesIn_groupTreeOf d c l]
    exact (hu.filter _).map _
  have hsort : sortNames (partNamesIn u d) =
      (List.range (splitChunks c l).length).map partName :=
    sortNames_eq_of_perm hnames (sorted_partNames hn)
  refine ⟨hsort, ?_⟩
  unfold joinGroup
  rw [hsort, List.map_map]
  have hlk : ∀ i ∈ List.range (splitChunks c l).length,
      ((fun n => (lookupT u (d ++ [n])).getD []) ∘ partName) i =
        (splitChunks c l).getD i [] := by
    intro i hi
    simp only [Function.comp_def]
    rw [lookupT_perm hndU hu, lookupT_groupTreeOf d (by omega) (List.mem_range.mp hi)]
    rfl
  rw [List.map_congr_left hlk, range_getD_splitChunks]
  exact splitChunks_flatten hc l

/-! ### Characters of the generated names -/

theorem digitChar_ne_slash {d : Nat} (hd : d ≤ 9) : digitChar d ≠ '/' := by
  unfold digitChar
  interval_cases d <;> decide

theorem digitChar_ne_s {d : Nat} (hd : d ≤ 9) : digitChar d ≠ 's' := by
  unfold digitChar
  interval_cases d <;> decide

theorem natChars_chars (n : Nat) : ∀ ch ∈ natChars n, ∃ d, d ≤ 9 ∧ ch = digitChar d := by
  induction n using Nat.strong_induction_on with
  | _ n ih =>
    intro ch hch
    rw [natChars_eq] at hch
    by_cases h : n < 10
    · rw [if_pos h] at hch
      rcases List.mem_singleton.mp hch with rfl
      exact ⟨n, by omega, rfl⟩
    · rw [if_neg h] at hch
      rcases List.mem_append.mp hch with h' | h'
      · exact ih (n / 10) (Nat.div_lt_self (by omega) (by omega)) ch h'
      · rcases List.mem_singleton.mp h' with rfl
        exact ⟨n % 10, by omega, rfl⟩

theorem pad04_chars (n : Nat) :
    ∀ ch ∈ pad04 n, ch = '0' ∨ ∃ d, d ≤ 9 ∧ ch = digitChar d := by
  intro ch hch
  rcases List.mem_append.mp hch with h | h
  · exact Or.inl (List.eq_of_mem_replicate h)
  · exact Or.inr (natChars_chars n ch h)

theorem slash_not_mem_partName (i : Nat) : '/' ∉ partName i := by
  intro hmem
  rcases List.mem_append.mp hmem with h | h
  · exact absurd h (by decide)
  · rcases pad04_chars i '/' h with h' | ⟨d, hd, h'⟩
    · exact absurd h' (by decide)
    · exact digitChar_ne_slash hd h'.symm

theorem s_not_mem_partName (i : Nat) : 's' ∉ partName i := by
  intro hmem
  rcases List.mem_append.mp hmem with h | h
  · exact absurd h (by decide)
  · rcases pad04_chars i 's' h with h' | ⟨d, hd, h'⟩
    · exact absurd h' (by decide)
    · exact digitChar_ne_s hd h'.symm

theorem partName_ne_nil (i : Nat) : partName i ≠ [] := by
  unfold partName partPre
  simp

theorem plainComp_partName (i : Nat) : plainComp (partName i) :=
  ⟨partName_ne_nil i, slash_not_mem_partName i⟩

theorem plainComp_sentinel : plainComp sentinelName := by
  constructor <;> decide

theorem not_endsParts_partName (i : Nat) : ¬ (partsSuffix <:+ partName i) := by
  intro hsuf
  exact s_not_mem_partName i (hsuf.subset (by decide))

theorem not_endsParts_sentinel : ¬ (partsSuffix <:+ sentinelName) := by decide

theorem endsParts_concat (x : Name) : endsParts (x ++ partsSuffix) = true := by
  simp [endsParts, List.suffix_append]

/-! ### Relative path encoding and decoding -/

theorem relOf_eq : ∀ p : Fpath, p ≠ [] → relOf p = '/' :: joinComps p := by
  intro p
  induction p with
  | nil => intro h; exact absurd rfl h
  | cons n rest ih =>
    intro _
    cases rest with
    | nil => simp [relOf, joinComps]
    | cons m rs =>
      have h' : relOf (m :: rs) = '/' :: joinComps (m :: rs) := ih (by simp)
      show ('/' :: n) ++ relOf (m :: rs) = '/' :: joinComps (n :: m :: rs)
      rw [h']
      simp [joinComps]

theorem joinComps_ne_nil : ∀ p : Fpath, p ≠ [] → (∀ n ∈ p, plainComp n) →
    joinComps p ≠ [] := by
  intro p
  match p with
  | [] => intro h; exact absurd rfl h
  | [n] =>
    intro _ hcomp
    simpa [joinComps] using (hcomp n (by simp)).1
  | n :: m :: rs =>
    intro _ hcomp
    show n ++ '/' :: joinComps (m :: rs) ≠ []
    simp

theorem joinComps_head : ∀ p : Fpath, p ≠ [] → (∀ n ∈ p, plainComp n) →
    ∀ h, (joinComps p).head? = some h → h ≠ '/' := by
  intro p
  match p with
  | [] => intro h; exact absurd rfl h
  | [n] =>
    intro _ hcomp h hh
    have hn := hcomp n (by simp)
    intro hcon
    subst hcon
    have : '/' ∈ n := by
      rw [show joinComps [n] = n from rfl] at hh
      exact List.mem_of_mem_head? (by rw [hh]; simp)
    exact hn.2 this
  | n :: m :: rs =>
    intro _ hcomp h hh
    have hn := hcomp n (by simp)
    rw [show joinComps (n :: m :: rs) = n ++ '/' :: joinComps (m :: rs) from rfl] at hh
    rw [List.head?_append] at hh
    cases hn' : n.head? with
    | none => exact absurd hn' (by cases n with | nil => exact absurd rfl hn.1 | cons a as => simp)
    | some a =>
      rw [hn', Option.or] at hh
      intro hcon
      rcases Option.some_inj.mp hh with rfl
      subst hcon
      exact hn.2 (List.mem_of_mem_head? (by rw [hn']; simp))

theorem joinComps_getLast : ∀ p : Fpath, p ≠ [] → (∀ n ∈ p, plainComp n) →
    ∀ h, (joinComps p).getLast? = some h → h ≠ '/' := by
  intro p
  induction p with
  | nil => intro h; exact absurd rfl h
  | cons n rest ih =>
    intro _ hcomp h hh
    cases rest with
    | nil =>
      have hn := hcomp n (by simp)
      rw [show joinComps [n] = n from rfl] at hh
      intro hcon
      subst hcon
      exact hn.2 (List.mem_of_mem_getLast? (by rw [hh]; simp))
    | cons m rs =>
      rw [show joinComps (n :: m :: rs) = n ++ '/' :: joinComps (m :: rs) from rfl] at hh
      have hne : joinComps (m :: rs) ≠ [] :=
        joinComps_ne_nil _ (by simp) fun q hq => hcomp q (by simp [hq])
      rw [List.getLast?_append] at hh
      have h2 : ('/' :: joinComps (m :: rs)).getLast? = (joinComps (m :: rs)).getLast? := by
        cases hj : joinComps (m :: rs) with
        | nil => exact absurd hj hne
        | cons a as => simp [List.getLast?_cons_cons]
      rw [h2] at hh
      have h3 : (joinComps (m :: rs)).getLast? = some h := by
        cases hj : (joinComps (m :: rs)).getLast? with
        | none =>
          exfalso
          exact hne (List.getLast?_eq_none_iff.mp hj)
        | some a =>
          rw [hj] at hh
          simpa [Option.or] using hh
      exact ih (by simp) (fun q hq => hcomp q (by simp [hq])) h h3

theorem dropWhile_slash_eq_self {s : Name}
    (h : ∀ ch, s.head? = some ch → ch ≠ '/') :
    (s.dropWhile fun c => decide (c = '/')) = s := by
  cases s with
  | nil => rfl
  | cons a as =>
    rw [List.dropWhile_cons]
    have ha : a ≠ '/' := h a rfl
    simp [ha]

/-- `relPath.strip('/')` on a pack-produced relative path removes exactly
the leading separator. -/
theorem stripSlashes_relOf {p : Fpath} (hne : p ≠ [])
    (hcomp : ∀ n ∈ p, plainComp n) : stripSlashes (relOf p) = joinComps p := by
  rw [relOf_eq p hne]
  unfold stripSlashes
  rw [List.dropWhile_cons]
  simp only [decide_True, if_true]
  rw [dropWhile_slash_eq_self (joinComps_head p hne hcomp)]
  rw [dropWhile_slash_eq_self fun ch hch => by
    rw [List.head?_reverse] at hch
    exact joinComps_getLast p hne hcomp ch hch]
  exact List.reverse_reverse _

theorem splitComps_append {comp : Name} (hns : '/' ∉ comp) :
    ∀ s h tl, splitComps s = h :: tl →
      splitComps (comp ++ s) = (comp ++ h) :: tl := by
  induction comp with
  | nil => intro s h tl hs; simpa using hs
  | cons c cs ih =>
    intro s h tl hs
    have hc : c ≠ '/' := fun hcon => hns (by simp [hcon])
    have hcs : '/' ∉ cs := fun hm => hns (by simp [hm])
    show splitComps (c :: (cs ++ s)) = (c :: (cs ++ h)) :: tl
    simp only [splitComps, if_neg hc, ih hcs s h tl hs]

theorem splitComps_joinComps : ∀ p : Fpath, p ≠ [] → (∀ n ∈ p, plainComp n) →
    splitComps (joinComps p) = p := by
  intro p
  induction p with
  | nil => intro h; exact absurd rfl h
  | cons n rest ih =>
    intro _ hcomp
    cases rest with
    | nil =>
      show splitComps (joinComps [n]) = [n]
      rw [show joinComps [n] = n from rfl]
      have h0 : splitComps ([] : Name) = [[]] := rfl
      have happ := splitComps_append (hcomp n (by simp)).2 [] [] [] h0
      simpa using happ
    | cons m rs =>
      show splitComps (n ++ '/' :: joinComps (m :: rs)) = n :: m :: rs
      have hrest : splitComps (joinComps (m :: rs)) = m :: rs :=
        ih (by simp) fun q hq => hcomp q (by simp [hq])
      have hslash : splitComps ('/' :: joinComps (m :: rs)) = [] :: m :: rs := by
        simp [splitComps, hrest]
      have happ := splitComps_append (hcomp n (by simp)).2 _ _ _ hslash
      simpa using happ

/-- The destination path of a row written by `SinaraArchive_save_file`
equals the original relative path of the packed file. -/
theorem splitComps_stripSlashes_relOf {p : Fpath} (hne : p ≠ [])
    (hcomp : ∀ n ∈ p, plainComp n) : splitComps (stripSlashes (relOf p)) = p := by
  rw [stripSlashes_relOf hne hcomp]
  exact splitComps_joinComps p hne hcomp

/-! ### Paths of chunk groups -/

theorem getLastD_eq_getElem : ∀ (l : Fpath), l ≠ [] →
    ∀ hl : l.length - 1 < l.length, l.getLastD [] = l[l.length - 1] := by
  intro l
  induction l with
  | nil => intro h; exact absurd rfl h
  | cons a rest ih =>
    intro _ hl
    cases rest with
    | nil => rfl
    | cons b t =>
      have h' := ih (by simp) (by simp)
      show (b :: t).getLastD [] = _
      rw [h']
      have : (a :: b :: t).length - 1 = ((b :: t).length - 1) + 1 := by
        simp
      simp only [this, List.getElem_cons_succ]

theorem getLastD_mem {l : Fpath} (h : l ≠ []) : l.getLastD [] ∈ l := by
  have hl : l.length - 1 < l.length := by
    have : 0 < l.length := List.length_pos.mpr h
    omega
  rw [getLastD_eq_getElem l h hl]
  exact List.getElem_mem hl

theorem dropLast_append_getLastD {p : Fpath} (h : p ≠ []) :
    p.dropLast ++ [p.getLastD []] = p := by
  have := List.dropLast_append_getLast h
  rw [List.getLastD_eq_getLast?, List.getLast?_eq_getLast _ h]
  exact this

theorem partsDirOf_ne_nil (p : Fpath) : partsDirOf p ≠ [] := by
  unfold partsDirOf
  simp

theorem partsDirOf_length {p : Fpath} (h : p ≠ []) :
    (partsDirOf p).length = p.length := by
  unfold partsDirOf
  have : 0 < p.length := List.length_pos.mpr h
  simp [List.length_dropLast]
  omega

theorem getLastD_partsDirOf (p : Fpath) :
    (partsDirOf p).getLastD [] = p.getLastD [] ++ partsSuffix := by
  unfold partsDirOf
  exact List.getLastD_concat _ _ _

theorem endsParts_partsDirOf (p : Fpath) :
    endsParts ((partsDirOf p).getLastD []) = true := by
  rw [getLastD_partsDirOf]
  exact endsParts_concat _

theorem stemOf_concat (x : Name) : stemOf (x ++ partsSuffix) = x := by
  unfold stemOf
  have : (x ++ partsSuffix).length - partsSuffix.length = x.length := by
    simp
  rw [this, List.take_left]

theorem partsDirOf_inj {p p' : Fpath} (hp : p ≠ []) (hp' : p' ≠ [])
    (h : partsDirOf p = partsDirOf p') : p = p' := by
  unfold partsDirOf at h
  have h1 : p.dropLast = p'.dropLast ∧
      p.getLastD [] ++ partsSuffix = p'.getLastD [] ++ partsSuffix := by
    constructor
    · have := congrArg List.dropLast h
      simpa [List.dropLast_concat] using this
    · have := congrArg (fun l => List.getLastD l ([] : Name)) h
      simpa [List.getLastD_concat] using this
  have h2 : p.getLastD [] = p'.getLastD [] := List.append_cancel_right h1.2
  calc p = p.dropLast ++ [p.getLastD []] := (dropLast_append_getLastD hp).symm
    _ = p'.dropLast ++ [p'.getLastD []] := by rw [h1.1, h2]
    _ = p' := dropLast_append_getLastD hp'

/-- The destination file of rejoining the group `<file>.parts` is the
original file path. -/
theorem partsDirOf_target {p : Fpath} (h : p ≠ []) :
    (partsDirOf p).dropLast ++ [stemOf ((partsDirOf p).getLastD [])] = p := by
  rw [getLastD_partsDirOf, stemOf_concat]
  show (p.dropLast ++ [p.getLastD [] ++ partsSuffix]).dropLast ++ _ = p
  rw [List.dropLast_concat]
  exact dropLast_append_getLastD h

/-- The group directory of `p` never lies on `p` itself: the split file
is outside its own `.parts` directory. -/
theorem not_partsDir_prefix_self (p : Fpath) : ¬ (partsDirOf p <+: p) := by
  intro h
  by_cases hp : p = []
  · rw [hp] at h
    have hle := h.length_le
    simp [partsDirOf] at hle
  · have hlen : (partsDirOf p).length = p.length := partsDirOf_length hp
    have heq : partsDirOf p = p := h.eq_of_length hlen
    have hlast := congrArg (fun l => List.getLastD l ([] : Name)) heq
    simp only at hlast
    rw [getLastD_partsDirOf] at hlast
    have hcon := congrArg List.length hlast
    simp [partsSuffix] at hcon

theorem validPath_not_endsParts {p : Fpath} (hv : validPath p) {comp : Name}
    (hc : comp ∈ p) : ¬ (partsSuffix <:+ comp) := (hv.2 comp hc).2

theorem endsParts_nil : endsParts [] = false := by decide

/-- In a valid path, no (proper-or-not) prefix names a `.parts`
directory. -/
theorem prefix_valid_not_endsParts {p : Fpath} (hv : validPath p) {q : Fpath}
    (hq : q <+: p) (hends : endsParts (q.getLastD []) = true) : False := by
  by_cases hqe : q = []
  · rw [hqe, show ([] : Fpath).getLastD [] = [] from rfl, endsParts_nil] at hends
    exact Bool.noConfusion hends
  · have hmem : q.getLastD [] ∈ p := hq.subset (getLastD_mem hqe)
    have hnot := validPath_not_endsParts hv hmem
    simp only [endsParts, decide_eq_true_eq] at hends
    exact hnot hends

/-- Inside a chunk-group path the only component ending in `".parts"` is
the group directory component itself. -/
theorem group_path_comp_position {p : Fpath} (hv : validPath p) {n' : Name}
    (hn' : ¬ (partsSuffix <:+ n')) {j : Nat}
    (hj : j < (partsDirOf p ++ [n']).length)
    (hends : partsSuffix <:+ (partsDirOf p ++ [n'])[j]) : j = p.length - 1 := by
  have hpne : p ≠ [] := hv.1
  have hplen : 0 < p.length := List.length_pos.mpr hpne
  have hrl : (partsDirOf p ++ [n']).length = p.length + 1 := by
    simp [partsDirOf_length hpne]
  rcases Nat.lt_trichotomy j (p.length - 1) with hlt | heq | hgt
  · exfalso
    have hdl : j < p.dropLast.length := by simp only [List.length_dropLast]; omega
    have hpre : p.dropLast <+: partsDirOf p ++ [n'] := by
      unfold partsDirOf
      rw [List.append_assoc]
      exact List.prefix_append _ _
    have h1 : p.dropLast[j] = (partsDirOf p ++ [n'])[j] := hpre.getElem hdl
    rw [← h1] at hends
    exact validPath_not_endsParts hv
      ((List.dropLast_sublist p).subset (List.getElem_mem hdl)) hends
  · exact heq
  · exfalso
    have hje : j = p.length := by omega
    have h1 : (partsDirOf p ++ [n'])[j] = n' := by
      rw [List.getElem_append_right (by rw [partsDirOf_length hpne]; omega)]
      simp [partsDirOf_length hpne, hje]
    rw [h1] at hends
    exact hn' hends

/-- A prefix of a chunk-group path whose name ends in `".parts"` is the
group directory itself. -/
theorem prefix_group_path_endsParts {p : Fpath} (hv : validPath p) {n' : Name}
    (hn' : ¬ (partsSuffix <:+ n')) {q : Fpath}
    (hq : q <+: partsDirOf p ++ [n']) (hqne : q ≠ [])
    (hends : endsParts (q.getLastD []) = true) : q = partsDirOf p := by
  have hpne : p ≠ [] := hv.1
  have hplen : 0 < p.length := List.length_pos.mpr hpne
  have hql : 0 < q.length := List.length_pos.mpr hqne
  have hlen : q.length ≤ (partsDirOf p ++ [n']).length := hq.length_le
  have hrl : (partsDirOf p ++ [n']).length = p.length + 1 := by
    simp [partsDirOf_length hpne]
  have hidx : q.length - 1 < q.length := by omega
  have hlast : q.getLastD [] = (partsDirOf p ++ [n'])[q.length - 1] := by
    rw [getLastD_eq_getElem q hqne hidx]
    exact hq.getElem hidx
  simp only [endsParts, decide_eq_true_eq] at hends
  rw [hlast] at hends
  have hpos : q.length - 1 = p.length - 1 :=
    group_path_comp_position hv hn' (by omega) hends
  have hqlen : q.length = p.length := by omega
  have := List.prefix_iff_eq_take.mp hq
  rw [this, hqlen, ← partsDirOf_length hpne, List.take_left]

/-- A chunk-group directory is never a prefix of a path all of whose
components avoid the `".parts"` suffix. -/
theorem partsDir_not_prefix_plain {p b : Fpath}
    (hb : ∀ comp ∈ b, ¬ (partsSuffix <:+ comp)) (hq : partsDirOf p <+: b) :
    False := by
  have hmem : (partsDirOf p).getLastD [] ∈ b :=
    hq.subset (getLastD_mem (partsDirOf_ne_nil p))
  have := hb _ hmem
  have h2 := endsParts_partsDirOf p
  simp only [endsParts, decide_eq_true_eq] at h2
  exact this (by rwa [getLastD_partsDirOf] at h2 ⊢)

/-- A chunk-group directory that reaches into another file's chunk group
must be that same group. -/
theorem partsDir_prefix_group {p p' : Fpath} (hv : validPath p)
    (hv' : validPath p') {n' : Name} (hn' : ¬ (partsSuffix <:+ n'))
    (hq : partsDirOf p <+: partsDirOf p' ++ [n']) : p = p' := by
  have hpne : p ≠ [] := hv.1
  have hpne' : p' ≠ [] := hv'.1
  have hplen : 0 < p.length := List.length_pos.mpr hpne
  have hplen' : 0 < p'.length := List.length_pos.mpr hpne'
  have heq := prefix_group_path_endsParts hv' hn' hq (partsDirOf_ne_nil p)
    (endsParts_partsDirOf p)
  exact partsDirOf_inj hpne hpne' heq

/-! ### Rejoining a group inside a larger tree -/

theorem partNamesIn_append (t1 t2 : Tree) (d : Fpath) :
    partNamesIn (t1 ++ t2) d = partNamesIn t1 d ++ partNamesIn t2 d := by
  unfold partNamesIn
  rw [List.filter_append, List.map_append]

theorem partNamesIn_perm {u v : Tree} (h : u.Perm v) (d : Fpath) :
    (partNamesIn u d).Perm (partNamesIn v d) := (h.filter _).map _

theorem partNamesIn_eq_nil {t : Tree} {d : Fpath}
    (h : ∀ x ∈ t, x.1.dropLast ≠ d) : partNamesIn t d = [] := by
  unfold partNamesIn
  have : List.filter (fun e : Fpath × Bytes =>
      decide (e.1.dropLast = d) && startsPart (e.1.getLastD [])) t = [] := by
    rw [List.filter_eq_nil_iff]
    intro x hx
    simp [h x hx]
  rw [this]
  rfl

/-- The unique-sorted-arrangement core of `_join_parts` on one group: if
the `part-*` names visible in `d` are exactly the chunk names and each
chunk file holds its chunk, the group rejoins to the original bytes. -/
theorem joinGroup_core {c : Nat} (hc : 0 < c) {l : Bytes}
    (hn : (splitChunks c l).length ≤ 10000) (d : Fpath) {u : Tree}
    (hnames : (partNamesIn u d).Perm
      ((List.range (splitChunks c l).length).map partName))
    (hlk : ∀ i, i < (splitChunks c l).length →
      lookupT u (d ++ [partName i]) = some ((splitChunks c l).getD i [])) :
    sortNames (partNamesIn u d) =
      (List.range (splitChunks c l).length).map partName ∧
    joinGroup u d = l := by
  have hsort : sortNames (partNamesIn u d) =
      (List.range (splitChunks c l).length).map partName :=
    sortNames_eq_of_perm hnames (sorted_partNames hn)
  refine ⟨hsort, ?_⟩
  unfold joinGroup
  rw [hsort, List.map_map]
  have hlk' : ∀ i ∈ List.range (splitChunks c l).length,
      ((fun n => (lookupT u (d ++ [n])).getD []) ∘ partName) i =
        (splitChunks c l).getD i [] := by
    intro i hi
    simp only [Function.comp_def]
    rw [hlk i (List.mem_range.mp hi)]
    rfl
  rw [List.map_congr_left hlk', range_getD_splitChunks]
  exact splitChunks_flatten hc l

theorem splitChunks_zero (l : Bytes) : splitChunks 0 l = [] := by
  rw [splitChunks_eq]; simp

/-- Shape of the filesystem entries one split adds. -/
theorem chunkEntriesOf_shape {R : Nat} {e x : Fpath × Bytes}
    (hx : x ∈ chunkEntriesOf R e) :
    ∃ n', x.1 = partsDirOf e.1 ++ [n'] ∧ plainComp n' ∧
      ¬ (partsSuffix <:+ n') ∧ x.2.length ≤ R := by
  unfold chunkEntriesOf groupTreeOf at hx
  rw [splitEntries_eq] at hx
  rcases List.mem_map.mp hx with ⟨nb, hnb, rfl⟩
  rcases List.mem_append.mp hnb with h | h
  · rcases List.mem_map.mp h with ⟨i, hi, rfl⟩
    have hi' : i < (splitChunks R e.2).length := List.mem_range.mp hi
    have hR : 0 < R := by
      by_contra hR0
      have : R = 0 := by omega
      rw [this, splitChunks_zero] at hi'
      simp at hi'
    refine ⟨partName i, rfl, plainComp_partName i, not_endsParts_partName i, ?_⟩
    show ((splitChunks R e.2).getD i []).length ≤ R
    have hmem : (splitChunks R e.2).getD i [] ∈ splitChunks R e.2 := by
      rw [List.getD_eq_getElem _ _ hi']
      exact List.getElem_mem hi'
    exact (splitChunks_sizes hR e.2 _ hmem).2
  · rcases List.mem_singleton.mp h with rfl
    exact ⟨sentinelName, rfl, plainComp_sentinel, not_endsParts_sentinel, by simp⟩

theorem chunk_mem_chunkEntriesOf {R : Nat} {e : Fpath × Bytes} {i : Nat}
    (hi : i < (splitChunks R e.2).length) :
    (partsDirOf e.1 ++ [partName i], (splitChunks R e.2).getD i []) ∈
      chunkEntriesOf R e := by
  unfold chunkEntriesOf groupTreeOf
  rw [splitEntries_eq]
  refine List.mem_map.mpr ⟨(partName i, (splitChunks R e.2).getD i []), ?_, rfl⟩
  exact List.mem_append.mpr (Or.inl (List.mem_map.mpr ⟨i, List.mem_range.mpr hi, rfl⟩))

/-! ### The split pass of pack -/

/-- When no existing entry lies at or under the group directory (the
`mkdir` succeeds and every chunk path and the sentinel path are fresh),
`_split_file` degenerates to a plain append of the chunk group. -/
theorem split_file_eq {t : Tree} {p : Fpath} {b : Bytes}
    (h : lookupT t p = some b) (c : Nat)
    (hfresh : ∀ e ∈ t, ¬ (partsDirOf p <+: e.1)) :
    SinaraArchive_split_file t p c = t ++ groupTreeOf (partsDirOf p) c b := by
  unfold SinaraArchive_split_file
  rw [h]
  have hdir : lookupT t (partsDirOf p) = none := by
    apply lookupT_eq_none
    intro e he hcon
    exact hfresh e he (by rw [hcon])
  show (if lookupT t (partsDirOf p) = none then
      touchFile
        ((chunkWrites c b).foldl
          (fun acc nb => writeFile acc (partsDirOf p ++ [nb.1]) nb.2) t)
        (partsDirOf p ++ [sentinelName])
    else t) = t ++ groupTreeOf (partsDirOf p) c b
  rw [if_pos hdir]
  have hfold : (chunkWrites c b).foldl
      (fun acc nb => writeFile acc (partsDirOf p ++ [nb.1]) nb.2) t =
      t ++ (chunkWrites c b).map fun nb => (partsDirOf p ++ [nb.1], nb.2) := by
    refine writeFile_foldl_fresh (partsDirOf p) (chunkWrites c b) t ?_
      (chunkWrites_keys_nodup c b)
    intro nb _ e he hcon
    exact hfresh e he (by rw [hcon]; exact List.prefix_append _ _)
  have htouch : lookupT
      (t ++ (chunkWrites c b).map fun nb => (partsDirOf p ++ [nb.1], nb.2))
      (partsDirOf p ++ [sentinelName]) = none := by
    apply lookupT_eq_none
    intro e he hcon
    rcases List.mem_append.mp he with he | he
    · exact hfresh e he (by rw [hcon]; exact List.prefix_append _ _)
    · rcases List.mem_map.mp he with ⟨nb, hnb, rfl⟩
      have h2 : nb.1 = sentinelName := (append_singleton_inj hcon).2
      have hmem : nb.1 ∈ (chunkWrites c b).map Prod.fst :=
        List.mem_map.mpr ⟨nb, hnb, rfl⟩
      rw [chunkWrites_names] at hmem
      rcases List.mem_map.mp hmem with ⟨i, _, hi⟩
      exact sentinelName_ne_partName i (by rw [← h2, ← hi])
  rw [hfold, touchFile_absent htouch, List.append_assoc]
  unfold groupTreeOf splitEntries
  rw [List.map_append]
  rfl

theorem packSplitPass_foldStep (R : Nat) (t : Tree)
    (hvt : ∀ e ∈ t, validPath e.1) :
    ∀ (s : List (Fpath × Bytes)) (A : Tree),
      (∀ e ∈ s, lookupT t e.1 = some e.2) →
      (∀ e ∈ s, validPath e.1) →
      (s.map Prod.fst).Nodup →
      (∀ x ∈ A, ∀ e ∈ s, ¬ (partsDirOf e.1 <+: x.1)) →
      s.foldl
        (fun acc e => if R < e.2.length then SinaraArchive_split_file acc e.1 R else acc)
        (t ++ A) =
      t ++ (A ++ s.flatMap fun e =>
        if R < e.2.length then chunkEntriesOf R e else []) := by
  intro s
  induction s with
  | nil => intro A _ _ _ _; simp
  | cons e rest ih =>
    intro A h hvs hnds hA
    rw [List.foldl_cons]
    by_cases hbig : R < e.2.length
    · rw [if_pos hbig]
      have hfr : ∀ f ∈ t ++ A, ¬ (partsDirOf e.1 <+: f.1) := by
        intro f hf
        rcases List.mem_append.mp hf with hf | hf
        · exact fun hcon => partsDir_not_prefix_plain
            (fun comp hc => ((hvt f hf).2 comp hc).2) hcon
        · exact hA f hf e (List.mem_cons_self _ _)
      rw [split_file_eq (lookupT_append_left (h e (by simp)) A) R hfr,
        List.append_assoc]
      have hA' : ∀ x ∈ A ++ groupTreeOf (partsDirOf e.1) R e.2, ∀ f ∈ rest,
          ¬ (partsDirOf f.1 <+: x.1) := by
        intro x hx f hf hcon
        rcases List.mem_append.mp hx with hx | hx
        · exact hA x hx f (List.mem_cons_of_mem _ hf) hcon
        · rcases chunkEntriesOf_shape (e := e) hx with ⟨n', hx1, _, hn', _⟩
          rw [hx1] at hcon
          have hfe : f.1 = e.1 := partsDir_prefix_group
            (hvs f (List.mem_cons_of_mem _ hf)) (hvs e (List.mem_cons_self _ _))
            hn' hcon
          have hmem : e.1 ∈ rest.map Prod.fst := by
            rw [← hfe]
            exact List.mem_map.mpr ⟨f, hf, rfl⟩
          exact (List.nodup_cons.mp (by simpa using hnds)).1 hmem
      rw [ih (A ++ groupTreeOf (partsDirOf e.1) R e.2)
        (fun f hf => h f (List.mem_cons_of_mem _ hf))
        (fun f hf => hvs f (List.mem_cons_of_mem _ hf))
        (List.nodup_cons.mp (by simpa using hnds)).2 hA']
      rw [List.flatMap_cons, if_pos hbig]
      rw [List.append_assoc]
      rfl
    · rw [if_neg hbig, ih A (fun f hf => h f (List.mem_cons_of_mem _ hf))
        (fun f hf => hvs f (List.mem_cons_of_mem _ hf))
        (List.nodup_cons.mp (by simpa using hnds)).2
        (fun x hx f hf => hA x hx f (List.mem_cons_of_mem _ hf)),
        List.flatMap_cons, if_neg hbig, List.nil_append]

theorem flatMap_filter_if {α β : Type} (w : α → Bool) (q : α → Prop)
    [DecidablePred q] (f : α → List β) :
    ∀ l : List α,
      ((l.filter w).flatMap fun e => if q e then f e else []) =
        (l.filter fun e => w e && decide (q e)).flatMap f := by
  intro l
  induction l with
  | nil => rfl
  | cons a rest ih =>
    by_cases hw : w a
    · by_cases hq : q a
      · rw [List.filter_cons_of_pos hw, List.flatMap_cons, if_pos hq,
          List.filter_cons_of_pos (by simp [hw, hq]), List.flatMap_cons, ih]
      · rw [List.filter_cons_of_pos hw, List.flatMap_cons, if_neg hq,
          List.filter_cons_of_neg (by simp [hw, hq]), ih, List.nil_append]
    · rw [List.filter_cons_of_neg (by simpa using hw),
        List.filter_cons_of_neg (by simp [hw]), ih]

/-- For a valid source tree (so that no entry already lies inside a
`.parts` group directory), the split pass appends, for each oversized
file of the walk snapshot, the chunk group of that file; nothing else
changes. -/
theorem packSplitPass_eq {R : Nat} {t : Tree} (hv : validTree t) :
    packSplitPass R t =
      t ++ (t.filter fun e => walkKeep e.1 && decide (R < e.2.length)).flatMap
        (chunkEntriesOf R) := by
  unfold packSplitPass
  have hstep := packSplitPass_foldStep R t hv.2.1 (t.filter fun e => walkKeep e.1) []
    (fun e he => lookupT_eq_some_of_mem hv.1 e (List.mem_of_mem_filter he))
    (fun e he => hv.2.1 e (List.mem_of_mem_filter he))
    (((List.filter_sublist t).map Prod.fst).nodup hv.1)
    (fun x hx => absurd hx (List.not_mem_nil x))
  simp only [List.append_nil, List.nil_append] at hstep
  rw [hstep, flatMap_filter_if]

/-! ### Writing the rows at unpack -/

theorem writeRows_go : ∀ (rows : List (Name × Bytes)) (acc : Tree),
    (∀ f ∈ acc, ∀ r ∈ rows, f.1 ≠ splitComps (stripSlashes r.1)) →
    (rows.map fun r => splitComps (stripSlashes r.1)).Nodup →
    rows.foldl SinaraArchive_save_file acc =
      acc ++ rows.map fun r => (splitComps (stripSlashes r.1), r.2) := by
  intro rows
  induction rows with
  | nil => intro acc _ _; simp
  | cons r rest ih =>
    intro acc hfresh hnd
    rw [List.foldl_cons]
    have hsave : SinaraArchive_save_file acc r =
        acc ++ [(splitComps (stripSlashes r.1), r.2)] := by
      unfold SinaraArchive_save_file
      exact writeFile_fresh (fun f hf => hfresh f hf r (by simp)) r.2
    rw [hsave]
    rw [ih (acc ++ [(splitComps (stripSlashes r.1), r.2)]) ?hfresh ?hnd]
    case hfresh =>
      intro f hf r' hr'
      rcases List.mem_append.mp hf with hf' | hf'
      · exact hfresh f hf' r' (List.mem_cons_of_mem _ hr')
      · rcases List.mem_singleton.mp hf' with rfl
        simp only [List.map_cons, List.nodup_cons] at hnd
        intro hcon
        have hcon' : splitComps (stripSlashes r.1) = splitComps (stripSlashes r'.1) := hcon
        apply hnd.1
        rw [hcon']
        exact List.mem_map.mpr ⟨r', hr', rfl⟩
    case hnd => exact (List.nodup_cons.mp (by simpa using hnd)).2
    rw [List.append_assoc]
    rfl

theorem writeRows_eq {rows : List (Name × Bytes)}
    (hnd : (rows.map fun r => splitComps (stripSlashes r.1)).Nodup) :
    writeRows rows = rows.map fun r => (splitComps (stripSlashes r.1), r.2) := by
  unfold writeRows
  have h := writeRows_go rows [] (by simp) hnd
  simpa using h

/-! ### The `.parts` directory scan -/

theorem mem_prefixesOf {q p : Fpath} :
    q ∈ prefixesOf p ↔ q <+: p ∧ q.length < p.length := by
  unfold prefixesOf
  simp only [List.mem_map, List.mem_range]
  constructor
  · rintro ⟨k, hk, rfl⟩
    refine ⟨List.take_prefix k p, ?_⟩
    simp only [List.length_take]
    omega
  · rintro ⟨hpre, hlen⟩
    exact ⟨q.length, hlen, (List.prefix_iff_eq_take.mp hpre).symm⟩

theorem mem_dirsOf {t : Tree} {d : Fpath} :
    d ∈ dirsOf t ↔ ∃ e ∈ t, d <+: e.1 ∧ d.length < e.1.length := by
  unfold dirsOf
  rw [List.mem_dedup, List.mem_flatten]
  constructor
  · rintro ⟨l, hl, hd⟩
    rcases List.mem_map.mp hl with ⟨e, he, rfl⟩
    exact ⟨e, he, mem_prefixesOf.mp hd⟩
  · rintro ⟨e, he, hpre⟩
    exact ⟨prefixesOf e.1, List.mem_map.mpr ⟨e, he, rfl⟩, mem_prefixesOf.mpr hpre⟩

theorem mem_partsDirs {t : Tree} {d : Fpath} :
    d ∈ partsDirs t ↔
      (∃ e ∈ t, d <+: e.1 ∧ d.length < e.1.length) ∧
      endsParts (d.getLastD []) = true := by
  unfold partsDirs
  rw [List.mem_filter, mem_dirsOf]

theorem nodup_partsDirs (t : Tree) : (partsDirs t).Nodup :=
  (List.nodup_dedup _).filter _

theorem sentinel_mem_chunkEntriesOf (R : Nat) (e : Fpath × Bytes) :
    (partsDirOf e.1 ++ [sentinelName], ([] : Bytes)) ∈ chunkEntriesOf R e := by
  unfold chunkEntriesOf groupTreeOf
  rw [splitEntries_eq]
  exact List.mem_map.mpr ⟨(sentinelName, []), List.mem_append.mpr (Or.inr (by simp)), rfl⟩

/-- The `.parts` directories of the unpacked tree are exactly the chunk
groups of the oversized files. -/
theorem partsDirs_perm_of_decomp {R : Nat} {u base gs : Tree}
    (hperm : u.Perm (base ++ gs.flatMap (chunkEntriesOf R)))
    (hbase : ∀ b ∈ base, ∀ comp ∈ b.1, ¬ (partsSuffix <:+ comp))
    (hgs : ∀ e ∈ gs, validPath e.1)
    (hknd : (gs.map Prod.fst).Nodup) :
    (partsDirs u).Perm (gs.map fun e => partsDirOf e.1) := by
  have hinj : ∀ x ∈ gs, ∀ y ∈ gs, x.1 = y.1 → x = y :=
    (List.nodup_map_iff_inj_on (List.Nodup.of_map _ hknd)).mp hknd
  have hrhs : (gs.map fun e => partsDirOf e.1).Nodup := by
    apply (List.nodup_map_iff_inj_on (List.Nodup.of_map _ hknd)).mpr
    intro x hx y hy hpd
    exact hinj x hx y hy (partsDirOf_inj (hgs x hx).1 (hgs y hy).1 hpd)
  apply (List.perm_ext_iff_of_nodup (nodup_partsDirs u) hrhs).mpr
  intro d
  rw [mem_partsDirs]
  constructor
  · rintro ⟨⟨x, hx, hpre, hlen⟩, hends⟩
    have hdne : d ≠ [] := by
      intro h0
      rw [h0, show ([] : Fpath).getLastD [] = [] from rfl, endsParts_nil] at hends
      exact Bool.noConfusion hends
    have hx' : x ∈ base ++ gs.flatMap (chunkEntriesOf R) := hperm.mem_iff.mp hx
    rcases List.mem_append.mp hx' with hb | hg
    · exfalso
      have hmem : d.getLastD [] ∈ x.1 := hpre.subset (getLastD_mem hdne)
      exact hbase x hb _ hmem (by simpa [endsParts] using hends)
    · rcases List.mem_flatMap.mp hg with ⟨e, he, hxe⟩
      rcases chunkEntriesOf_shape hxe with ⟨n', hx1, _, hn', _⟩
      rw [hx1] at hpre
      exact List.mem_map.mpr
        ⟨e, he, (prefix_group_path_endsParts (hgs e he) hn' hpre hdne hends).symm⟩
  · intro hmem
    rcases List.mem_map.mp hmem with ⟨e, he, rfl⟩
    refine ⟨⟨(partsDirOf e.1 ++ [sentinelName], []), ?_, List.prefix_append _ _, by simp⟩,
      endsParts_partsDirOf e.1⟩
    exact hperm.mem_iff.mpr (List.mem_append.mpr
      (Or.inr (List.mem_flatMap.mpr ⟨e, he, sentinel_mem_chunkEntriesOf R e⟩)))

theorem dropLast_eq_imp_getLastD_mem {b d : Fpath} (hd : d ≠ [])
    (h : b.dropLast = d) : d.getLastD [] ∈ b := by
  have h1 : d.getLastD [] ∈ b.dropLast := by
    rw [h]
    exact getLastD_mem hd
  exact (List.dropLast_sublist b).subset h1

/-- The `_join_parts` fold: processing the chunk-group directories of the
unpacked tree replaces every chunk group by the restored original file,
and leaves everything else unchanged (up to entry order). -/
theorem joinParts_fold {R : Nat} (hR : 0 < R) :
    ∀ (ds : List Fpath) (gs base u : Tree),
      u.Perm (base ++ gs.flatMap (chunkEntriesOf R)) →
      ds.Perm (gs.map fun e => partsDirOf e.1) →
      nodupKeys u →
      (∀ b ∈ base, ∀ comp ∈ b.1, ¬ (partsSuffix <:+ comp)) →
      (∀ e ∈ gs, validPath e.1) →
      (gs.map Prod.fst).Nodup →
      (∀ b ∈ base, ∀ e ∈ gs, b.1 ≠ e.1) →
      (∀ e ∈ gs, (splitChunks R e.2).length ≤ 10000) →
      (ds.foldl (fun acc d =>
        writeFile (removeTreeDir acc d) (d.dropLast ++ [stemOf (d.getLastD [])])
          (joinGroup acc d)) u).Perm (base ++ gs) := by
  intro ds
  induction ds with
  | nil =>
    intro gs base u hperm hds _ _ _ _ _ _
    have h0 : (gs.map fun e => partsDirOf e.1) = [] := (hds.symm).eq_nil
    have hgs0 : gs = [] := by
      cases gs with
      | nil => rfl
      | cons a l => simp at h0
    rw [hgs0] at hperm ⊢
    simpa using hperm
  | cons d ds' ih =>
    intro gs base u hperm hds hnd hbase hgs hknd hdisj hbound
    have hd : d ∈ gs.map fun e => partsDirOf e.1 := hds.mem_iff.mp (by simp)
    rcases List.mem_map.mp hd with ⟨e, he, hde⟩
    have hgsnodup : gs.Nodup := List.Nodup.of_map _ hknd
    have hinj : ∀ x ∈ gs, ∀ y ∈ gs, x.1 = y.1 → x = y :=
      (List.nodup_map_iff_inj_on hgsnodup).mp hknd
    rcases List.append_of_mem he with ⟨l1, l2, hsplit⟩
    have hgsperm : gs.Perm (e :: (l1 ++ l2)) := by
      rw [hsplit]
      exact List.perm_middle
    have hsub : (l1 ++ l2).Sublist gs := by
      rw [hsplit]
      exact List.Sublist.append_left (List.sublist_cons_self e l2) l1
    have hnotmem : e ∉ l1 ++ l2 := by
      intro hmem
      have hnd2 : (e :: (l1 ++ l2)).Nodup := hgsperm.nodup_iff.mp hgsnodup
      exact (List.nodup_cons.mp hnd2).1 hmem
    have hsubmem : ∀ f ∈ l1 ++ l2, f ∈ gs := fun f hf => hsub.subset hf
    have hflat : (gs.flatMap (chunkEntriesOf R)).Perm
        (chunkEntriesOf R e ++ (l1 ++ l2).flatMap (chunkEntriesOf R)) := by
      simpa using List.Perm.flatMap_right (chunkEntriesOf R) hgsperm
    have hD' : u.Perm
        (base ++ (chunkEntriesOf R e ++ (l1 ++ l2).flatMap (chunkEntriesOf R))) :=
      hperm.trans (List.Perm.append_left base hflat)
    have hve : validPath e.1 := hgs e he
    have hene : e.1 ≠ [] := hve.1
    have hdne : d ≠ [] := by rw [← hde]; exact partsDirOf_ne_nil e.1
    have hbound_e := hbound e he
    have hbase_names : partNamesIn base d = [] := by
      apply partNamesIn_eq_nil
      intro x hx hcon
      have hmem := dropLast_eq_imp_getLastD_mem hdne hcon
      apply hbase x hx _ hmem
      rw [← hde, getLastD_partsDirOf]
      exact List.suffix_append _ _
    have hrest_names : partNamesIn ((l1 ++ l2).flatMap (chunkEntriesOf R)) d = [] := by
      apply partNamesIn_eq_nil
      intro x hx hcon
      rcases List.mem_flatMap.mp hx with ⟨f, hf, hxe⟩
      have hfgs : f ∈ gs := hsubmem f hf
      rcases chunkEntriesOf_shape hxe with ⟨n', hx1, _, hn', _⟩
      rw [hx1, List.dropLast_concat] at hcon
      have h1 : f.1 = e.1 :=
        partsDirOf_inj (hgs f hfgs).1 hene (by rw [hcon, ← hde])
      have h2 : f = e := hinj f hfgs e he h1
      rw [h2] at hf
      exact hnotmem hf
    have hCe_names : partNamesIn (chunkEntriesOf R e) d =
        (List.range (splitChunks R e.2).length).map partName := by
      rw [← hde]
      exact partNamesIn_groupTreeOf (partsDirOf e.1) R e.2
    have hnames : (partNamesIn u d).Perm
        ((List.range (splitChunks R e.2).length).map partName) := by
      have h1 := partNamesIn_perm hD' d
      rw [partNamesIn_append, partNamesIn_append, hbase_names, hrest_names,
        hCe_names] at h1
      simpa using h1
    have hlk : ∀ i, i < (splitChunks R e.2).length →
        lookupT u (d ++ [partName i]) = some ((splitChunks R e.2).getD i []) := by
      intro i hi
      have hmem : (d ++ [partName i], (splitChunks R e.2).getD i []) ∈ u := by
        rw [← hde]
        exact hD'.mem_iff.mpr (List.mem_append.mpr (Or.inr
          (List.mem_append.mpr (Or.inl (chunk_mem_chunkEntriesOf hi)))))
      exact lookupT_eq_some_of_mem hnd _ hmem
    have hjoin := joinGroup_core hR hbound_e d hnames hlk
    have hrem : (removeTreeDir u d).Perm
        (base ++ (l1 ++ l2).flatMap (chunkEntriesOf R)) := by
      have h1 : (removeTreeDir u d).Perm
          (List.filter (fun x => !(decide (d <+: x.1)))
            (base ++ (chunkEntriesOf R e ++ (l1 ++ l2).flatMap (chunkEntriesOf R)))) :=
        hD'.filter _
      rw [List.filter_append, List.filter_append] at h1
      have hb : base.filter (fun x => !(decide (d <+: x.1))) = base := by
        apply List.filter_eq_self.mpr
        intro b hbmem
        simp only [Bool.not_eq_true', decide_eq_false_iff_not]
        intro hpre
        rw [← hde] at hpre
        exact partsDir_not_prefix_plain (fun comp hc => hbase b hbmem comp hc) hpre
      have hc : (chunkEntriesOf R e).filter (fun x => !(decide (d <+: x.1))) = [] := by
        rw [List.filter_eq_nil_iff]
        intro x hx
        rcases chunkEntriesOf_shape hx with ⟨n', hx1, _, _, _⟩
        simp only [Bool.not_eq_true', decide_eq_false_iff_not, not_not]
        rw [hx1, ← hde]
        exact List.prefix_append _ _
      have hr : ((l1 ++ l2).flatMap (chunkEntriesOf R)).filter
          (fun x => !(decide (d <+: x.1))) = (l1 ++ l2).flatMap (chunkEntriesOf R) := by
        apply List.filter_eq_self.mpr
        intro x hx
        rcases List.mem_flatMap.mp hx with ⟨f, hf, hxe⟩
        have hfgs : f ∈ gs := hsubmem f hf
        rcases chunkEntriesOf_shape hxe with ⟨n', hx1, _, hn', _⟩
        simp only [Bool.not_eq_true', decide_eq_false_iff_not]
        intro hpre
        rw [hx1, ← hde] at hpre
        have h2 : e.1 = f.1 := partsDir_prefix_group hve (hgs f hfgs) hn' hpre
        have h3 : e = f := hinj e he f hfgs h2
        rw [← h3] at hf
        exact hnotmem hf
      rw [hb, hc, hr] at h1
      simpa using h1
    have hfresh : ∀ f ∈ removeTreeDir u d, f.1 ≠ e.1 := by
      intro f hf
      have hfD := hrem.mem_iff.mp hf
      rcases List.mem_append.mp hfD with hfb | hfg
      · exact hdisj f hfb e he
      · rcases List.mem_flatMap.mp hfg with ⟨e', he', hxe⟩
        rcases chunkEntriesOf_shape hxe with ⟨n', hx1, _, _, _⟩
        rw [hx1]
        intro hcon
        have hmem : (partsDirOf e'.1).getLastD [] ∈ e.1 := by
          rw [← hcon]
          exact List.mem_append.mpr (Or.inl (getLastD_mem (partsDirOf_ne_nil e'.1)))
        apply validPath_not_endsParts hve hmem
        rw [getLastD_partsDirOf]
        exact List.suffix_append _ _
    have hwf : writeFile (removeTreeDir u d)
        (d.dropLast ++ [stemOf (d.getLastD [])]) (joinGroup u d) =
        removeTreeDir u d ++ [(e.1, e.2)] := by
      have htgt : d.dropLast ++ [stemOf (d.getLastD [])] = e.1 := by
        rw [← hde]
        exact partsDirOf_target hene
      rw [htgt, hjoin.2]
      exact writeFile_fresh hfresh e.2
    simp only [List.foldl_cons]
    rw [hwf]
    have hndrem : nodupKeys (removeTreeDir u d) := by
      have hsubr : (removeTreeDir u d).Sublist u := List.filter_sublist u
      exact (hsubr.map Prod.fst).nodup hnd
    have hstep := ih (l1 ++ l2) (base ++ [(e.1, e.2)])
      (removeTreeDir u d ++ [(e.1, e.2)]) ?h1 ?h2 ?h3 ?h4 ?h5 ?h6 ?h7 ?h8
    case h1 =>
      refine (hrem.append_right [(e.1, e.2)]).trans ?_
      rw [List.append_assoc, List.append_assoc]
      apply List.Perm.append_left base
      exact List.perm_append_comm
    case h2 =>
      apply List.Perm.cons_inv (a := d)
      refine hds.trans ?_
      have hmap := hgsperm.map fun e => partsDirOf e.1
      rw [List.map_cons, hde] at hmap
      exact hmap
    case h3 =>
      show ((removeTreeDir u d ++ [(e.1, e.2)]).map Prod.fst).Nodup
      rw [List.map_append, List.nodup_append]
      refine ⟨hndrem, by simp, ?_⟩
      intro a ha hb
      rcases List.mem_map.mp ha with ⟨f, hf, rfl⟩
      rcases List.mem_singleton.mp (by simpa using hb) with h
      exact hfresh f hf h
    case h4 =>
      intro b hb comp hc
      rcases List.mem_append.mp hb with hb2 | hb2
      · exact hbase b hb2 comp hc
      · rcases List.mem_singleton.mp hb2 with rfl
        exact validPath_not_endsParts hve hc
    case h5 => exact fun f hf => hgs f (hsubmem f hf)
    case h6 => exact (hsub.map Prod.fst).nodup hknd
    case h7 =>
      intro b hb f hf
      rcases List.mem_append.mp hb with hb2 | hb2
      · exact hdisj b hb2 f (hsubmem f hf)
      · rcases List.mem_singleton.mp hb2 with rfl
        intro hcon
        have h2 : e = f := hinj e he f (hsubmem f hf) hcon
        rw [← h2] at hf
        exact hnotmem hf
    case h8 => exact fun f hf => hbound f (hsubmem f hf)
    refine hstep.trans ?_
    rw [List.append_assoc]
    apply List.Perm.append_left base
    show (e :: (l1 ++ l2)).Perm gs
    exact hgsperm.symm

/-! ### Assembling the pack/unpack round trip -/

theorem validPath_walkKeep {p : Fpath} (hvp : validPath p) : walkKeep p = true := by
  unfold walkKeep
  have h1 : endsParts (p.getLastD []) = false := by
    simp only [endsParts, decide_eq_false_iff_not]
    exact validPath_not_endsParts hvp (getLastD_mem hvp.1)
  have h2 : endsParts (p.dropLast.getLastD []) = false := by
    by_cases hdl : p.dropLast = []
    · rw [hdl]
      exact endsParts_nil
    · simp only [endsParts, decide_eq_false_iff_not]
      exact validPath_not_endsParts hvp ((List.dropLast_sublist p).subset (getLastD_mem hdl))
  rw [h1, h2]
  rfl

theorem chunkCount_le {R len : Nat} (hR : 0 < R) (h : len ≤ 10000 * R) :
    (len + R - 1) / R ≤ 10000 := by
  have h1 : (len + R - 1) / R < 10001 := by
    rw [Nat.div_lt_iff_lt_mul hR]
    omega
  omega

theorem plain_partsComp {p : Fpath} (hvp : validPath p) :
    plainComp (p.getLastD [] ++ partsSuffix) := by
  have hlast := hvp.2 _ (getLastD_mem hvp.1)
  constructor
  · intro hcon
    exact absurd (List.append_eq_nil.mp hcon).2 (by decide)
  · intro hmem
    rcases List.mem_append.mp hmem with h | h
    · exact hlast.1.2 h
    · exact absurd h (by decide)

theorem plain_chunkPath {p : Fpath} (hvp : validPath p) {n' : Name}
    (hpn : plainComp n') : ∀ comp ∈ partsDirOf p ++ [n'], plainComp comp := by
  intro comp hc
  rcases List.mem_append.mp hc with h | h
  · rcases List.mem_append.mp h with h' | h'
    · exact (hvp.2 _ ((List.dropLast_sublist p).subset h')).1
    · rcases List.mem_singleton.mp h' with rfl
      exact plain_partsComp hvp
  · rcases List.mem_singleton.mp h with rfl
    exact hpn

/-- Any component of a chunk-group entry path is usable as a filesystem
name. -/
theorem chunkEntriesOf_plain {R : Nat} {e x : Fpath × Bytes}
    (hve : validPath e.1) (hx : x ∈ chunkEntriesOf R e) :
    x.1 ≠ [] ∧ ∀ comp ∈ x.1, plainComp comp := by
  rcases chunkEntriesOf_shape hx with ⟨n', hx1, hpn, _, _⟩
  rw [hx1]
  exact ⟨by simp, plain_chunkPath hve hpn⟩

/-- A chunk-group entry path contains a `.parts` component, so it never
collides with a valid source path. -/
theorem chunkPath_ne_validPath {R : Nat} {e x : Fpath × Bytes}
    (hx : x ∈ chunkEntriesOf R e) {p : Fpath}
    (hvp : validPath p) : x.1 ≠ p := by
  rcases chunkEntriesOf_shape hx with ⟨n', hx1, _, _, _⟩
  rw [hx1]
  intro hcon
  have hmem : (partsDirOf e.1).getLastD [] ∈ p := by
    rw [← hcon]
    exact List.mem_append.mpr (Or.inl (getLastD_mem (partsDirOf_ne_nil e.1)))
  apply validPath_not_endsParts hvp hmem
  rw [getLastD_partsDirOf]
  exact List.suffix_append _ _

/-- Entry paths of distinct chunk groups differ. -/
theorem chunkPath_disjoint {R : Nat} {e f x y : Fpath × Bytes}
    (hve : validPath e.1) (hvf : validPath f.1) (hne : e.1 ≠ f.1)
    (hx : x ∈ chunkEntriesOf R e) (hy : y ∈ chunkEntriesOf R f) : x.1 ≠ y.1 := by
  rcases chunkEntriesOf_shape hx with ⟨n', hx1, _, _, _⟩
  rcases chunkEntriesOf_shape hy with ⟨m', hy1, _, _, _⟩
  rw [hx1, hy1]
  intro hcon
  have h1 := (append_singleton_inj hcon).1
  exact hne (partsDirOf_inj hve.1 hvf.1 h1)

theorem nodupKeys_flatMap_chunkEntries {R : Nat} :
    ∀ (gs : Tree), (∀ e ∈ gs, validPath e.1) → (gs.map Prod.fst).Nodup →
      (∀ e ∈ gs, (splitChunks R e.2).length ≤ 10000) →
      nodupKeys (gs.flatMap (chunkEntriesOf R)) := by
  intro gs
  induction gs with
  | nil => intro _ _ _; simp [nodupKeys]
  | cons e rest ih =>
    intro hv hknd hbd
    rw [List.flatMap_cons]
    show ((chunkEntriesOf R e ++ rest.flatMap (chunkEntriesOf R)).map Prod.fst).Nodup
    rw [List.map_append, List.nodup_append]
    refine ⟨nodupKeys_groupTreeOf _ (by have := hbd e (by simp); omega), ?_, ?_⟩
    · exact ih (fun f hf => hv f (by simp [hf])) (by simpa using (List.nodup_cons.mp (by simpa using hknd)).2)
        fun f hf => hbd f (by simp [hf])
    · intro q hq hq'
      rcases List.mem_map.mp hq with ⟨x, hx, rfl⟩
      rcases List.mem_map.mp hq' with ⟨y, hy, hxy⟩
      rcases List.mem_flatMap.mp hy with ⟨f, hf, hyf⟩
      have hef : e.1 ≠ f.1 := by
        intro hcon
        have hmem : f.1 ∈ rest.map Prod.fst := List.mem_map.mpr ⟨f, hf, rfl⟩
        rw [← hcon] at hmem
        exact (List.nodup_cons.mp (by simpa using hknd)).1 hmem
      exact chunkPath_disjoint (hv e (by simp)) (hv f (by simp [hf])) hef hx hyf hxy.symm

/-- The pack/unpack round trip: for a valid source tree whose files all
fit in at most 10000 chunks, unpacking the packed rows (delivered in any
order) reproduces exactly the original tree. -/
theorem pack_unpack_round_trip {R : Nat} (hR : 0 < R) {t : Tree} (hv : validTree t)
    (hsize : ∀ e ∈ t, e.2.length ≤ 10000 * R) {rows' : List (Name × Bytes)}
    (hrows : rows'.Perm (pack_files_from_tmp_to_spark_df R t)) :
    (unpack_files_from_spark_df_to_tmp rows').Perm t ∧
    ∀ e ∈ t, lookupT (unpack_files_from_spark_df_to_tmp rows') e.1 = some e.2 := by
  obtain ⟨hnd, hvp, hpre⟩ := hv
  set bigs := t.filter (fun e => walkKeep e.1 && decide (R < e.2.length)) with hbigs
  have hbigs_sub : ∀ e ∈ bigs, e ∈ t := fun e he => List.mem_of_mem_filter he
  have hbigs_valid : ∀ e ∈ bigs, validPath e.1 := fun e he => hvp e (hbigs_sub e he)
  have hbigs_keys : (bigs.map Prod.fst).Nodup :=
    ((List.filter_sublist t).map Prod.fst).nodup hnd
  have hbigs_bound : ∀ e ∈ bigs, (splitChunks R e.2).length ≤ 10000 := by
    intro e he
    rw [splitChunks_length hR]
    exact chunkCount_le hR (hsize e (hbigs_sub e he))
  set small := t.filter (fun e => decide (e.2.length ≤ R)) with hsmall
  have hsmall_sub : ∀ e ∈ small, e ∈ t := fun e he => List.mem_of_mem_filter he
  have hsmall_valid : ∀ e ∈ small, validPath e.1 := fun e he => hvp e (hsmall_sub e he)
  have hsmall_keys : (small.map Prod.fst).Nodup :=
    ((List.filter_sublist t).map Prod.fst).nodup hnd
  have hbase' : ∀ b ∈ small, ∀ comp ∈ b.1, ¬ (partsSuffix <:+ comp) :=
    fun b hb comp hc => ((hsmall_valid b hb).2 comp hc).2
  have hextras_small : (bigs.flatMap (chunkEntriesOf R)).filter
      (fun e => decide (e.2.length ≤ R)) = bigs.flatMap (chunkEntriesOf R) := by
    apply List.filter_eq_self.mpr
    intro x hx
    rcases List.mem_flatMap.mp hx with ⟨e, he, hxe⟩
    rcases chunkEntriesOf_shape hxe with ⟨n', _, _, _, hlen⟩
    simpa using hlen
  have hrows_eq : pack_files_from_tmp_to_spark_df R t =
      (small ++ bigs.flatMap (chunkEntriesOf R)).map fun e => (relOf e.1, e.2) := by
    unfold pack_files_from_tmp_to_spark_df
    rw [packSplitPass_eq ⟨hnd, hvp, hpre⟩]
    unfold packRows
    rw [List.filter_append, hextras_small, List.map_append]
  have htargets : ∀ e ∈ small ++ bigs.flatMap (chunkEntriesOf R),
      splitComps (stripSlashes (relOf e.1)) = e.1 := by
    intro e he
    rcases List.mem_append.mp he with h | h
    · have hve := hsmall_valid e h
      exact splitComps_stripSlashes_relOf hve.1 fun n hn => (hve.2 n hn).1
    · rcases List.mem_flatMap.mp h with ⟨f, hf, hef⟩
      rcases chunkEntriesOf_plain (hbigs_valid f hf) hef with ⟨hne, hplain⟩
      exact splitComps_stripSlashes_relOf hne hplain
  have hndD0 : nodupKeys (small ++ bigs.flatMap (chunkEntriesOf R)) := by
    show ((small ++ bigs.flatMap (chunkEntriesOf R)).map Prod.fst).Nodup
    rw [List.map_append, List.nodup_append]
    refine ⟨hsmall_keys,
      nodupKeys_flatMap_chunkEntries bigs hbigs_valid hbigs_keys hbigs_bound, ?_⟩
    intro q hq hq'
    rcases List.mem_map.mp hq with ⟨x, hx, rfl⟩
    rcases List.mem_map.mp hq' with ⟨y, hy, hxy⟩
    rcases List.mem_flatMap.mp hy with ⟨f, hf, hyf⟩
    exact chunkPath_ne_validPath hyf (hsmall_valid x hx) hxy
  have htargets' : (rows'.map fun r => splitComps (stripSlashes r.1)).Nodup := by
    have hperm1 := hrows.map fun r => splitComps (stripSlashes r.1)
    apply hperm1.nodup_iff.mpr
    rw [hrows_eq, List.map_map]
    have hcong : ∀ e ∈ small ++ bigs.flatMap (chunkEntriesOf R),
        ((fun r : Name × Bytes => splitComps (stripSlashes r.1)) ∘
          fun e : Fpath × Bytes => (relOf e.1, e.2)) e = e.1 := by
      intro e he
      simp only [Function.comp_def]
      exact htargets e he
    rw [List.map_congr_left hcong]
    exact hndD0
  have hDperm : (writeRows rows').Perm (small ++ bigs.flatMap (chunkEntriesOf R)) := by
    rw [writeRows_eq htargets']
    refine (hrows.map _).trans ?_
    rw [hrows_eq, List.map_map]
    have hcong : ∀ e ∈ small ++ bigs.flatMap (chunkEntriesOf R),
        ((fun r : Name × Bytes => (splitComps (stripSlashes r.1), r.2)) ∘
          fun e : Fpath × Bytes => (relOf e.1, e.2)) e = e := by
      intro e he
      simp only [Function.comp_def]
      rw [htargets e he]
    exact List.Perm.of_eq ((List.map_congr_left hcong).trans (List.map_id _))
  have hndD : nodupKeys (writeRows rows') :=
    ((hDperm.map Prod.fst).nodup_iff).mpr hndD0
  have hds := partsDirs_perm_of_decomp hDperm hbase' hbigs_valid hbigs_keys
  have hdisj : ∀ b ∈ small, ∀ e ∈ bigs, b.1 ≠ e.1 := by
    intro b hb e he hcon
    have hbt := hsmall_sub b hb
    have het := hbigs_sub e he
    have hbe : b = e :=
      (List.nodup_map_iff_inj_on (List.Nodup.of_map _ hnd)).mp hnd b hbt e het hcon
    have h1 := List.of_mem_filter hb
    have h2 := List.of_mem_filter he
    rw [hbe] at h1
    simp only [decide_eq_true_eq, Bool.and_eq_true] at h1 h2
    omega
  have hfold := joinParts_fold hR (partsDirs (writeRows rows')) bigs small
    (writeRows rows') hDperm hds hndD hbase' hbigs_valid hbigs_keys hdisj hbigs_bound
  have hresult : (unpack_files_from_spark_df_to_tmp rows').Perm (small ++ bigs) := by
    unfold unpack_files_from_spark_df_to_tmp SinaraArchive_join_parts
    exact hfold
  have hparts : (small ++ bigs).Perm t := by
    have hb_eq : bigs = t.filter fun e => decide (R < e.2.length) := by
      rw [hbigs]
      apply List.filter_congr
      intro e he
      rw [validPath_walkKeep (hvp e he)]
      simp
    have hcongr : (t.filter fun e => decide (R < e.2.length)) =
        t.filter fun e => !(decide (e.2.length ≤ R)) := by
      apply List.filter_congr
      intro e _
      by_cases h : e.2.length ≤ R
      · simp [h, Nat.not_lt.mpr h]
      · simp [h, Nat.not_le.mp h]
    rw [hb_eq, hcongr, hsmall]
    exact List.filter_append_perm _ t
  have hfinal : (unpack_files_from_spark_df_to_tmp rows').Perm t := hresult.trans hparts
  refine ⟨hfinal, ?_⟩
  intro e he
  have hndres : nodupKeys (unpack_files_from_spark_df_to_tmp rows') :=
    ((hfinal.map Prod.fst).nodup_iff).mpr hnd
  rw [lookupT_perm hndres hfinal]
  exact lookupT_eq_some_of_mem hnd e he

/-! ### The 10001-chunk boundary -/

theorem sorted_getLast_of_max {S : List Name} {m : Name}
    (hs : List.Sorted (· ≤ ·) S) (hm : m ∈ S)
    (hmax : ∀ x ∈ S, x ≠ m → x < m) : S.getLast? = some m := by
  induction S with
  | nil => simp at hm
  | cons a rest ih =>
    cases rest with
    | nil =>
      rcases List.mem_singleton.mp hm with rfl
      rfl
    | cons b tl =>
      rw [List.getLast?_cons_cons]
      have hm' : m ∈ b :: tl := by
        rcases List.mem_cons.mp hm with rfl | h
        · by_cases hb : b = m
          · rw [hb]; simp
          · exfalso
            have h1 : b < m := hmax b (by simp) hb
            have h2 : m ≤ b := (List.sorted_cons.mp hs).1 b (by simp)
            exact absurd h1 (not_lt.mpr h2)
        · exact h
      exact ih hs.of_cons hm' fun x hx hne => hmax x (by simp [hx]) hne

theorem flatten_singletons {β : Type} (g : Name → β) :
    ∀ (L : List Name) (F : Name → List β), (∀ x ∈ L, F x = [g x]) →
      (L.map F).flatten = L.map g := by
  intro L
  induction L with
  | nil => intro F _; rfl
  | cons a rest ih =>
    intro F h
    rw [List.map_cons, List.flatten_cons, h a (by simp), ih F fun x hx => h x (by simp [hx])]
    rfl

theorem cexContent_length : cexContent.length = 10001 := by
  unfold cexContent
  rw [List.length_append, List.length_replicate]
  rfl

theorem cex_chunks_length : (splitChunks 1 cexContent).length = 10001 := by
  rw [splitChunks_one, List.length_map, cexContent_length]

theorem cex_chunk_getD {i : Nat} (hi : i < 10001) :
    (splitChunks 1 cexContent).getD i [] = [cexContent.getD i 0] := by
  rw [splitChunks_one]
  have h1 : i < (cexContent.map fun x => [x]).length := by
    rw [List.length_map, cexContent_length]
    exact hi
  have h2 : i < cexContent.length := by rw [cexContent_length]; exact hi
  rw [List.getD_eq_getElem _ _ h1, List.getElem_map, List.getD_eq_getElem _ _ h2]

/-- C3 counterexample: a file of 10001 bytes split with chunk size 1
produces chunks `part-0000` … `part-9999`, `part-10000`; the Rejoiner's
string sort places `part-10000` before `part-9999`, so the rejoined bytes
differ from the original (the last byte 1 is lost from the end).  This
falsifies the claim as stated, at this explicit input. -/
theorem C3_counterexample :
    joinGroup (groupTreeOf cexDir 1 cexContent) cexDir ≠ cexContent := by
  have hn : (splitChunks 1 cexContent).length = 10001 := cex_chunks_length
  have hnames : partNamesIn (groupTreeOf cexDir 1 cexContent) cexDir =
      (List.range 10001).map partName := by
    rw [partNamesIn_groupTreeOf, hn]
  have hSperm : (sortNames (partNamesIn (groupTreeOf cexDir 1 cexContent) cexDir)).Perm
      ((List.range 10001).map partName) := by
    rw [hnames]
    exact List.perm_insertionSort _ _
  have hSsorted : List.Sorted (· ≤ ·)
      (sortNames (partNamesIn (groupTreeOf cexDir 1 cexContent) cexDir)) :=
    List.sorted_insertionSort _ _
  have hmemS : ∀ x ∈ sortNames (partNamesIn (groupTreeOf cexDir 1 cexContent) cexDir),
      ∃ i, i ≤ 10000 ∧ x = partName i := by
    intro x hx
    rcases List.mem_map.mp (hSperm.mem_iff.mp hx) with ⟨i, hi, rfl⟩
    exact ⟨i, by have := List.mem_range.mp hi; omega, rfl⟩
  have hmax : (sortNames (partNamesIn (groupTreeOf cexDir 1 cexContent) cexDir)).getLast?
      = some (partName 9999) := by
    apply sorted_getLast_of_max hSsorted
    · exact hSperm.mem_iff.mpr
        (List.mem_map.mpr ⟨9999, List.mem_range.mpr (by omega), rfl⟩)
    · intro x hx hne
      rcases hmemS x hx with ⟨i, hi, rfl⟩
      have hine : i ≠ 9999 := fun hcon => hne (by rw [hcon])
      rcases Nat.lt_or_ge i 9999 with h | h
      · exact partName_lt h (by omega)
      · have h10000 : i = 10000 := by omega
        rw [h10000]
        exact partName_10000_lt_9999
  have hlk : ∀ i, i ≤ 10000 →
      (lookupT (groupTreeOf cexDir 1 cexContent) (cexDir ++ [partName i])).getD []
        = [cexContent.getD i 0] := by
    intro i hi
    rw [lookupT_groupTreeOf cexDir (by rw [hn]) (by rw [hn]; omega)]
    rw [Option.getD_some]
    exact cex_chunk_getD (by omega)
  have hout : joinGroup (groupTreeOf cexDir 1 cexContent) cexDir =
      (sortNames (partNamesIn (groupTreeOf cexDir 1 cexContent) cexDir)).map
        fun nn => ((lookupT (groupTreeOf cexDir 1 cexContent) (cexDir ++ [nn])).getD []).headI := by
    unfold joinGroup
    apply flatten_singletons
    intro x hx
    rcases hmemS x hx with ⟨i, hi, rfl⟩
    rw [hlk i hi]
    rfl
  intro hcon
  have h1 : (joinGroup (groupTreeOf cexDir 1 cexContent) cexDir).getLast? = some 0 := by
    rw [hout, List.getLast?_map, hmax]
    show some (((lookupT (groupTreeOf cexDir 1 cexContent)
      (cexDir ++ [partName 9999])).getD []).headI) = some 0
    rw [hlk 9999 (by omega)]
    have hval : cexContent.getD 9999 0 = 0 := by
      unfold cexContent
      rw [List.getD_eq_getElem _ _
        (by rw [List.length_append, List.length_replicate]; omega)]
      rw [List.getElem_append_left (by rw [List.length_replicate]; omega)]
      rw [List.getElem_replicate]
    rw [hval]
    rfl
  have h2 : cexContent.getLast? = some 1 := by
    unfold cexContent
    rw [List.getLast?_concat]
  rw [hcon, h2] at h1
  simp at h1

/-! ### Exactness of double rounding below the mantissa bound -/

theorem excessBits_small {n : Nat} (h : n < 2 ^ 53) : excessBits n = 0 := by
  show excessBitsF (1099 + 1) n = 0
  rw [excessBitsF, if_pos h]

/-- Every integer below `2 ^ 53` is exactly representable as a double:
the rounding is the identity there. -/
theorem roundToDouble_exact {n : Nat} (h : n < 2 ^ 53) : roundToDouble n = n := by
  unfold roundToDouble
  rw [excessBits_small h]
  simp [Nat.mod_one]

/-! ## The claims -/

/-- C1 (amended): Round-trip — for a valid source tree (non-empty
separator-free component names none of which ends in `".parts"`,
distinct prefix-free file paths) whose files are each at most
`10000 * ROW_SIZE` bytes (at most 10000 chunks), unpacking the rows
produced by pack — delivered in any order — reproduces every file's
original byte content exactly at the same relative path, and nothing
else: the unpacked tree is a permutation of the source tree.  Both
amendments are forced by counterexamples: a source component ending in
`".parts"` is destroyed by the rejoin scan, and a file beyond 10000
chunks is reassembled out of order. -/
theorem C1_round_trip {R : Nat} (hR : 0 < R) {t : Tree} (hv : validTree t)
    (hsize : ∀ e ∈ t, e.2.length ≤ 10000 * R) {rows' : List (Name × Bytes)}
    (hrows : rows'.Perm (pack_files_from_tmp_to_spark_df R t)) :
    (unpack_files_from_spark_df_to_tmp rows').Perm t ∧
    ∀ e ∈ t, lookupT (unpack_files_from_spark_df_to_tmp rows') e.1 = some e.2 :=
  pack_unpack_round_trip hR hv hsize hrows

/-- Witness for C1 at the concrete two-file tree `wtree` with
`ROW_SIZE = 2` (file `b` is split into chunks `[1,2]` and `[3]`). -/
theorem C1_round_trip_witness :
    (0 : Nat) < 2 ∧ validTree wtree ∧
    (∀ e ∈ wtree, e.2.length ≤ 10000 * 2) ∧
    ((unpack_files_from_spark_df_to_tmp
        (pack_files_from_tmp_to_spark_df 2 wtree)).Perm wtree ∧
      ∀ e ∈ wtree, lookupT (unpack_files_from_spark_df_to_tmp
        (pack_files_from_tmp_to_spark_df 2 wtree)) e.1 = some e.2) :=
  ⟨by decide, by decide, by decide,
    C1_round_trip (by decide) (by decide) (by decide) (List.Perm.refl _)⟩

/-- C1 counterexample: for the source tree holding the file
`y.parts/a = [7]` (a directory literally named `y.parts`), the round
trip loses the file: the unpacked tree has no entry at `y.parts/a`
(instead, the rejoin scan fabricates an empty file `y` and deletes the
directory). -/
theorem C1_counterexample :
    lookupT (unpack_files_from_spark_df_to_tmp
      (pack_files_from_tmp_to_spark_df 3 c1tree)) ["y.parts".data, ['a']] = none ∧
    lookupT (unpack_files_from_spark_df_to_tmp
      (pack_files_from_tmp_to_spark_df 3 c1tree)) [['y']] = some [] := by
  constructor <;> decide

/-- C2 (amended): Chunker correctness — for every file of size `S > 0`
and chunk size `c > 0`, `_split_file` produces at least one and exactly
`⌈S/c⌉` chunk files named `part-{i:04d}` with indices contiguous from 0,
each chunk of size `c` except possibly the last (every chunk non-empty
and at most `c`), their concatenation in index order equal to the
original bytes, and the `_PARTS` sentinel entry created after all chunk
entries.  Amendment: the index field is the minimum-width-4 zero-padded
decimal (exactly four digits only while the group has at most 10000
chunks); beyond index 9999 the `%04d` format emits five digits. -/
theorem C2_chunker {c : Nat} (hc : 0 < c) {l : Bytes} (hl : l ≠ []) :
    0 < (splitChunks c l).length ∧
    (splitChunks c l).length = (l.length + c - 1) / c ∧
    splitEntries c l =
      ((List.range (splitChunks c l).length).map fun i =>
        (partName i, (splitChunks c l).getD i [])) ++ [(sentinelName, [])] ∧
    (∀ i, i + 1 < (splitChunks c l).length →
      ((splitChunks c l).getD i []).length = c) ∧
    (∀ ch ∈ splitChunks c l, ch ≠ [] ∧ ch.length ≤ c) ∧
    (splitChunks c l).flatten = l ∧
    ((splitChunks c l).length ≤ 10000 →
      ∀ i < (splitChunks c l).length, (pad04 i).length = 4) := by
  have hpos : 0 < (splitChunks c l).length := by
    rw [splitChunks_eq]
    simp [hc.ne', hl]
  exact ⟨hpos, splitChunks_length hc l, splitEntries_eq c l, splitChunks_full hc l,
    splitChunks_sizes hc l, splitChunks_flatten hc l,
    fun hn i hi => pad04_length_eq_four (by omega)⟩

/-- Witness for C2 with `c = 2` and `l = [1,2,3]` (two chunks). -/
theorem C2_chunker_witness :
    (0 : Nat) < 2 ∧ ([1, 2, 3] : Bytes) ≠ [] ∧
    (splitChunks 2 [1, 2, 3]).length = (3 + 2 - 1) / 2 ∧
    (splitChunks 2 [1, 2, 3]).flatten = [1, 2, 3] :=
  ⟨by decide, by decide, (C2_chunker (by decide) (by decide)).2.1,
    (C2_chunker (by decide) (by decide)).2.2.2.2.2.1⟩

/-- C2 counterexample: the split of the 10001-byte file `cexContent`
with chunk size 1 contains the chunk file `part-10000`, whose index
field has five digits — not the claimed four-digit zero-padded form. -/
theorem C2_counterexample :
    partName 10000 ∈ (splitEntries 1 cexContent).map Prod.fst ∧
    (pad04 10000).length ≠ 4 := by
  constructor
  · rw [splitEntries_names, cex_chunks_length]
    exact List.mem_append.mpr
      (Or.inl (List.mem_map.mpr ⟨10000, List.mem_range.mpr (by omega), rfl⟩))
  · decide

/-- C3 (amended to groups of at most 10000 chunks): Rejoin ordering —
for any file split into `N ≤ 10000` chunks and any listing order of the
chunk-group directory (any permutation `u` of the group entries), the
Rejoiner's name sort arranges the chunk files in strictly increasing
index order (chunk `k` before chunk `k+1` for every `k`), and the
concatenation is byte-exact.  The 10000 bound is forced: at 10001 chunks
the string sort misplaces `part-10000`. -/
theorem C3_rejoin_order {c : Nat} (hc : 0 < c) {l : Bytes}
    (hn : (splitChunks c l).length ≤ 10000) (d : Fpath) {u : Tree}
    (hu : u.Perm (groupTreeOf d c l)) :
    sortNames (partNamesIn u d) =
      (List.range (splitChunks c l).length).map partName ∧
    joinGroup u d = l :=
  joinGroup_perm_groupTree hc hn d hu

/-- Witness for C3: the group of `[5,6,7]` split with chunk size 2,
listed in reversed order, still rejoins byte-exactly. -/
theorem C3_rejoin_order_witness :
    (0 : Nat) < 2 ∧ (splitChunks 2 [5, 6, 7]).length ≤ 10000 ∧
    ((groupTreeOf cexDir 2 [5, 6, 7]).reverse).Perm (groupTreeOf cexDir 2 [5, 6, 7]) ∧
    joinGroup ((groupTreeOf cexDir 2 [5, 6, 7]).reverse) cexDir = [5, 6, 7] :=
  ⟨by decide, by decide, by decide,
    (C3_rejoin_order (c := 2) (l := [5, 6, 7]) (by decide) (by decide) cexDir
      (by decide)).2⟩

/-- C4 (code bug): the Rejoiner never reads the `_PARTS` sentinel it
creates.  Evaluated at the failing input — a group `f.parts` holding
`part-0000 = [1]` and `part-0001 = [2]` but no sentinel — `_join_parts`
silently reassembles the truncated file `f = [1, 2]` and deletes the
group, instead of leaving `f` absent or reporting an error. -/
theorem C4_missing_sentinel_rejoined :
    lookupT (SinaraArchive_join_parts c4tree) [['f']] = some [1, 2] ∧
    lookupT (SinaraArchive_join_parts c4tree)
      ["f.parts".data, "part-0000".data] = none := by
  constructor <;> decide

/-- C5 (amended): Partition plan — with positive block size and core
count, and `totalBytes < 2 ^ 53` (the range in which the Python float
true division `int(total_size / BLOCK_SIZE)` coincides with the exact
floor division: the double holds `totalBytes` exactly, last conjunct),
the partition count is `⌊totalBytes / blockSize⌋` when that exceeds
`3 * coreCount` and `3 * coreCount` otherwise; in particular it is
`3 * coreCount` (never zero) for an empty input, and at `blockSize = 1`
the explicit float-semantics computation agrees.  The bound is forced:
beyond `2 ^ 53` the float quotient diverges from the exact floor (see
the counterexample). -/
theorem C5_partition_plan (totalBytes blockSize coreCount : Nat)
    (_hB : 0 < blockSize) (hC : 0 < coreCount) (hT : totalBytes < 2 ^ 53) :
    (totalBytes / blockSize > 3 * coreCount →
      partitionsFor totalBytes blockSize coreCount = totalBytes / blockSize) ∧
    (totalBytes / blockSize ≤ 3 * coreCount →
      partitionsFor totalBytes blockSize coreCount = 3 * coreCount) ∧
    partitionsFor 0 blockSize coreCount = 3 * coreCount ∧
    0 < partitionsFor totalBytes blockSize coreCount ∧
    partitionsFloatOne totalBytes coreCount = partitionsFor totalBytes 1 coreCount ∧
    roundToDouble totalBytes = totalBytes := by
  have key : ∀ tb, partitionsFor tb blockSize coreCount =
      if tb / blockSize > coreCount * 3 then tb / blockSize
      else coreCount * 3 := fun tb => rfl
  refine ⟨?_, ?_, ?_, ?_, ?_, roundToDouble_exact hT⟩
  · intro h
    rw [key, if_pos (by omega)]
  · intro h
    rw [key, if_neg (by omega)]
    omega
  · rw [key, Nat.zero_div, if_neg (by omega)]
    omega
  · rw [key]
    split
    · omega
    · omega
  · unfold partitionsFloatOne partitionsFor
    rw [roundToDouble_exact hT, Nat.div_one]

/-- Witness for C5 at `(totalBytes, blockSize, coreCount) = (7, 2, 1)`:
`⌊7/2⌋ = 3 ≤ 3·1`, so the plan is 3, and the float path agrees. -/
theorem C5_partition_plan_witness :
    (0 : Nat) < 2 ∧ (0 : Nat) < 1 ∧ (7 : Nat) < 2 ^ 53 ∧
    partitionsFor 0 2 1 = 3 * 1 ∧
    (7 / 2 ≤ 3 * 1 → partitionsFor 7 2 1 = 3 * 1) ∧
    partitionsFloatOne 7 1 = partitionsFor 7 1 1 :=
  ⟨by decide, by decide, by decide,
    (C5_partition_plan 7 2 1 (by decide) (by decide) (by decide)).2.2.1,
    (C5_partition_plan 7 2 1 (by decide) (by decide) (by decide)).2.1,
    (C5_partition_plan 7 2 1 (by decide) (by decide) (by decide)).2.2.2.2.1⟩

/-- C5 counterexample: at `totalBytes = 2 ^ 53 + 1` and `blockSize = 1`
the exact floor quotient is `2 ^ 53 + 1` (and exceeds `3 * coreCount`
for `coreCount = 1`), but the correctly rounded double division of the
program returns `2 ^ 53` (round to nearest, ties to even, drops the last
bit), so the computed partition count differs from the claimed
`⌊totalBytes / blockSize⌋`. -/
theorem C5_counterexample :
    (2 ^ 53 + 1) / 1 > 3 * 1 ∧
    roundToDouble (2 ^ 53 + 1) = 2 ^ 53 ∧
    partitionsFloatOne (2 ^ 53 + 1) 1 = 2 ^ 53 ∧
    partitionsFloatOne (2 ^ 53 + 1) 1 ≠ (2 ^ 53 + 1) / 1 := by
  refine ⟨by decide, by decide, by decide, by decide⟩

/-- C6 (amended): Relative path derivation — every (small enough) file
of the post-split tree is loaded as a row whose relPath is the file's
absolute path with exactly the `file:<sourceDir>` prefix removed, i.e.
the `'/'`-prefixed relative path.  Contrary to the original claim the
stored relativePath therefore carries a leading separator; the separator
is removed only at unpack time, when `save_file` strips it before
joining the path (so the written destination path has no leading
separator and equals the original component path). -/
theorem C6_relpath_derivation (R : Nat) (t : Tree) :
    (∀ e ∈ packSplitPass R t, e.2.length ≤ R →
      (relOf e.1, e.2) ∈ pack_files_from_tmp_to_spark_df R t) ∧
    (∀ p : Fpath, p ≠ [] → relOf p = '/' :: joinComps p) ∧
    (∀ p : Fpath, p ≠ [] → (∀ n ∈ p, plainComp n) →
      splitComps (stripSlashes (relOf p)) = p) := by
  refine ⟨?_, relOf_eq, fun p h1 h2 => splitComps_stripSlashes_relOf h1 h2⟩
  intro e he hlen
  unfold pack_files_from_tmp_to_spark_df packRows
  exact List.mem_map.mpr ⟨e, List.mem_filter.mpr ⟨he, by simpa using hlen⟩, rfl⟩

/-- Witness for C6: the single file `a/b = [5]` is stored with relPath
`"/a/b"`, and stripping recovers the path. -/
theorem C6_relpath_derivation_witness :
    (relOf [['a'], ['b']], ([5] : Bytes)) ∈
      pack_files_from_tmp_to_spark_df 10 [([['a'], ['b']], [5])] ∧
    relOf [['a'], ['b']] = '/' :: joinComps [['a'], ['b']] ∧
    splitComps (stripSlashes (relOf [['a'], ['b']])) = [['a'], ['b']] :=
  ⟨(C6_relpath_derivation 10 [([['a'], ['b']], [5])]).1 ([['a'], ['b']], [5])
      (by decide) (by decide),
    (C6_relpath_derivation 10 [([['a'], ['b']], [5])]).2.1 [['a'], ['b']] (by decide),
    (C6_relpath_derivation 10 [([['a'], ['b']], [5])]).2.2 [['a'], ['b']] (by decide)
      (by decide)⟩

/-- C6 counterexample: the stored relPath of the packed file `a/b` is
the string `"/a/b"`, whose first character is the separator — the
stored relativePath is not free of a leading separator as claimed. -/
theorem C6_counterexample :
    (pack_files_from_tmp_to_spark_df 10 [([['a'], ['b']], [5])]).map Prod.fst =
      ["/a/b".data] ∧
    ("/a/b".data).head? = some '/' := by
  constructor <;> decide

/-- C7: Row-size invariant — every row produced by pack (the written
set) has content length at most the configured ROW_SIZE: the load
filter admits only rows with `length ≤ ROW_SIZE`, so oversized originals
are excluded while their chunks are included. -/
theorem C7_row_size_invariant (R : Nat) (t : Tree) :
    ∀ row ∈ pack_files_from_tmp_to_spark_df R t, row.2.length ≤ R := by
  intro row hrow
  unfold pack_files_from_tmp_to_spark_df packRows at hrow
  rcases List.mem_map.mp hrow with ⟨e, he, rfl⟩
  simpa using List.of_mem_filter he

/-- Witness for C7: the first row of packing `wtree` at threshold 2. -/
theorem C7_row_size_invariant_witness :
    (relOf [['a']], ([9] : Bytes)) ∈ pack_files_from_tmp_to_spark_df 2 wtree ∧
    (relOf [['a']], ([9] : Bytes)).2.length ≤ 2 :=
  ⟨by decide, C7_row_size_invariant 2 wtree _ (by decide)⟩

/-- C8: Threshold validation — vacuously satisfied: the code has no
separate chunk-size setting at all; `_split_file` is always invoked with
chunk size exactly `ROW_SIZE` (first conjunct: on a valid source tree
the split pass appends `chunkEntriesOf R`, the chunk groups cut at size
`R = ROW_SIZE`), so a configuration with chunkSize > rowSize cannot
arise and the conditional claim holds with an unsatisfiable antecedent.
Consequently every chunk entry producible by the split pass has length
at most ROW_SIZE (second conjunct, for every tree): the situation the
validation would guard against — a chunk larger than a row — is
impossible.  No explicit fail-fast check exists in the code, and none is
reachable. -/
theorem C8_chunk_size_never_exceeds_row_size {R : Nat} {t : Tree}
    (hv : validTree t) :
    packSplitPass R t =
      t ++ (t.filter fun e => walkKeep e.1 && decide (R < e.2.length)).flatMap
        (chunkEntriesOf R) ∧
    ∀ x ∈ (t.filter fun e => walkKeep e.1 && decide (R < e.2.length)).flatMap
        (chunkEntriesOf R), x.2.length ≤ R := by
  refine ⟨packSplitPass_eq hv, ?_⟩
  intro x hx
  rcases List.mem_flatMap.mp hx with ⟨e, _, hxe⟩
  rcases chunkEntriesOf_shape hxe with ⟨n', _, _, _, hlen⟩
  exact hlen

/-- Witness for C8: `wtree` at threshold 2. -/
theorem C8_chunk_size_never_exceeds_row_size_witness :
    validTree wtree ∧
    packSplitPass 2 wtree =
      wtree ++ (wtree.filter fun e => walkKeep e.1 && decide (2 < e.2.length)).flatMap
        (chunkEntriesOf 2) :=
  ⟨by decide, (C8_chunk_size_never_exceeds_row_size (by decide)).1⟩

/-- C9: Frame property of `_split_file` — the original file's content in
the tree is unchanged (it is read, never modified or deleted: its path
never lies inside its own sibling group directory, and an aborted
`mkdir` leaves everything in place), every pre-existing file outside the
`<filename>.parts` group directory keeps its content (the writes of
`_split_file` all target paths inside that directory, so everything else
is untouched), and every entry of the resulting tree is either an old
entry or lies inside the sibling `<filename>.parts` directory — the
effect of the step is confined to creating that directory and the files
within it. -/
theorem C9_split_file_frame (t : Tree) (p : Fpath) (c : Nat) :
    lookupT (SinaraArchive_split_file t p c) p = lookupT t p ∧
    (∀ q b, ¬ (partsDirOf p <+: q) → lookupT t q = some b →
      lookupT (SinaraArchive_split_file t p c) q = some b) ∧
    ∀ x ∈ SinaraArchive_split_file t p c, x ∈ t ∨ partsDirOf p <+: x.1 := by
  cases hsplit : lookupT t p with
  | none =>
    have heq : SinaraArchive_split_file t p c = t := by
      unfold SinaraArchive_split_file
      rw [hsplit]
    rw [heq]
    exact ⟨hsplit, fun q b _ h => h, fun x hx => Or.inl hx⟩
  | some content =>
    by_cases hdir : lookupT t (partsDirOf p) = none
    case neg =>
      have heq : SinaraArchive_split_file t p c = t := by
        unfold SinaraArchive_split_file
        rw [hsplit]
        show (if lookupT t (partsDirOf p) = none then
            touchFile
              ((chunkWrites c content).foldl
                (fun acc nb => writeFile acc (partsDirOf p ++ [nb.1]) nb.2) t)
              (partsDirOf p ++ [sentinelName])
          else t) = t
        rw [if_neg hdir]
      rw [heq]
      exact ⟨hsplit, fun q b _ h => h, fun x hx => Or.inl hx⟩
    case pos =>
      have heq : SinaraArchive_split_file t p c =
          touchFile
            ((chunkWrites c content).foldl
              (fun acc nb => writeFile acc (partsDirOf p ++ [nb.1]) nb.2) t)
            (partsDirOf p ++ [sentinelName]) := by
        unfold SinaraArchive_split_file
        rw [hsplit]
        show (if lookupT t (partsDirOf p) = none then
            touchFile
              ((chunkWrites c content).foldl
                (fun acc nb => writeFile acc (partsDirOf p ++ [nb.1]) nb.2) t)
              (partsDirOf p ++ [sentinelName])
          else t) =
          touchFile
            ((chunkWrites c content).foldl
              (fun acc nb => writeFile acc (partsDirOf p ++ [nb.1]) nb.2) t)
            (partsDirOf p ++ [sentinelName])
        rw [if_pos hdir]
      rw [heq]
      refine ⟨?_, ?_, ?_⟩
      · have hfr : ∀ nb ∈ chunkWrites c content, p ≠ partsDirOf p ++ [nb.1] := by
          intro nb _ hcon
          have hpre := List.prefix_append (partsDirOf p) [nb.1]
          rw [← hcon] at hpre
          exact not_partsDir_prefix_self p hpre
        have hsp : p ≠ partsDirOf p ++ [sentinelName] := by
          intro hcon
          have hpre := List.prefix_append (partsDirOf p) [sentinelName]
          rw [← hcon] at hpre
          exact not_partsDir_prefix_self p hpre
        rw [lookupT_touchFile_ne hsp,
          lookupT_writeFold_out (partsDirOf p) (chunkWrites c content) t p hfr]
        exact hsplit
      · intro q b hq h
        have hfr : ∀ nb ∈ chunkWrites c content, q ≠ partsDirOf p ++ [nb.1] := by
          intro nb _ hcon
          exact hq (by rw [hcon]; exact List.prefix_append _ _)
        have hsp : q ≠ partsDirOf p ++ [sentinelName] := by
          intro hcon
          exact hq (by rw [hcon]; exact List.prefix_append _ _)
        rw [lookupT_touchFile_ne hsp,
          lookupT_writeFold_out (partsDirOf p) (chunkWrites c content) t q hfr]
        exact h
      · intro x hx
        rcases mem_touchFile hx with hx' | rfl
        · rcases mem_writeFold (partsDirOf p) (chunkWrites c content) t x hx' with
            h | ⟨nb, _, rfl⟩
          · exact Or.inl h
          · exact Or.inr (List.prefix_append _ _)
        · exact Or.inr (List.prefix_append _ _)

/-- Witness for C9: splitting `b` in `wtree` leaves both `a` and `b`
readable with their original bytes (neither path lies inside the group
directory `b.parts`). -/
theorem C9_split_file_frame_witness :
    ¬ (partsDirOf [['b']] <+: [['a']]) ∧ ¬ (partsDirOf [['b']] <+: [['b']]) ∧
    lookupT wtree [['a']] = some [9] ∧
    lookupT (SinaraArchive_split_file wtree [['b']] 2) [['a']] = some [9] ∧
    lookupT (SinaraArchive_split_file wtree [['b']] 2) [['b']] = some [1, 2, 3] :=
  ⟨by decide, by decide, by decide,
    (C9_split_file_frame wtree [['b']] 2).2.1 [['a']] [9] (by decide) (by decide),
    (C9_split_file_frame wtree [['b']] 2).2.1 [['b']] [1, 2, 3] (by decide) (by decide)⟩

/-- C10 (amended to valid source trees): Boundary behaviour at the
row-size threshold — for a source tree none of whose entries already
lies inside a `.parts` directory, the split pass splits only files with
size strictly greater than ROW_SIZE (first conjunct: the oversized
filter is `ROW_SIZE < length`); if no file exceeds the threshold the
split pass changes nothing; a file of size exactly ROW_SIZE is loaded
unchanged as a single row (the row filter admits `length = ROW_SIZE`);
and every chunk produced with chunk size equal to ROW_SIZE also passes
the row filter.  The validity restriction is forced: a stale chunk file
of size exactly ROW_SIZE inside a pre-existing `.parts` directory is
overwritten by the split pass before loading (see the
counterexample). -/
theorem C10_threshold_boundary {R : Nat} {t : Tree} (hv : validTree t) :
    packSplitPass R t =
      t ++ (t.filter fun e => walkKeep e.1 && decide (R < e.2.length)).flatMap
        (chunkEntriesOf R) ∧
    ((∀ e ∈ t, e.2.length ≤ R) → packSplitPass R t = t) ∧
    (∀ e ∈ t, e.2.length = R →
      (relOf e.1, e.2) ∈ pack_files_from_tmp_to_spark_df R t) ∧
    ∀ l : Bytes, ∀ ch ∈ splitChunks R l, ch.length ≤ R := by
  refine ⟨packSplitPass_eq hv, ?_, ?_, ?_⟩
  · intro hall
    rw [packSplitPass_eq hv]
    have hfil : t.filter (fun e => walkKeep e.1 && decide (R < e.2.length)) = [] := by
      rw [List.filter_eq_nil_iff]
      intro e he
      have := hall e he
      simp [Nat.not_lt.mpr this]
    rw [hfil]
    simp
  · intro e he hlen
    unfold pack_files_from_tmp_to_spark_df packRows
    refine List.mem_map.mpr ⟨e, List.mem_filter.mpr ⟨?_, by simp [hlen]⟩, rfl⟩
    rw [packSplitPass_eq hv]
    exact List.mem_append.mpr (Or.inl he)
  · intro l ch hch
    by_cases hR : R = 0
    · rw [hR, splitChunks_zero] at hch
      simp at hch
    · exact (splitChunks_sizes (Nat.pos_of_ne_zero hR) l ch hch).2

/-- Witness for C10: a tree with one file of size exactly 2 at
threshold 2 is not split and becomes one row. -/
theorem C10_threshold_boundary_witness :
    validTree [([['a']], ([4, 5] : Bytes))] ∧
    packSplitPass 2 [([['a']], ([4, 5] : Bytes))] = [([['a']], [4, 5])] ∧
    (relOf [['a']], ([4, 5] : Bytes)) ∈
      pack_files_from_tmp_to_spark_df 2 [([['a']], ([4, 5] : Bytes))] :=
  ⟨by decide,
    (C10_threshold_boundary (t := [([['a']], ([4, 5] : Bytes))]) (by decide)).2.1
      (by decide),
    (C10_threshold_boundary (t := [([['a']], ([4, 5] : Bytes))]) (by decide)).2.2.1
      ([['a']], [4, 5]) (by decide) (by decide)⟩

/-- C10 counterexample: in the source tree `c10tree` — the 2-byte file
`x` beside a stale 1-byte chunk file `x.parts/part-0000 = [42]` — at
threshold `ROW_SIZE = 1` the stale entry has size exactly the threshold,
yet no row carries its content: splitting the oversized `x` opens
`x.parts/part-0000` with `'wb'` and overwrites the stale byte before the
rows are loaded, so a size-equal-to-threshold file is not "included
unchanged as a single row" on such a tree. -/
theorem C10_counterexample :
    (["x.parts".data, "part-0000".data], ([42] : Bytes)) ∈ c10tree ∧
    ([42] : Bytes).length = 1 ∧
    (relOf ["x.parts".data, "part-0000".data], ([42] : Bytes)) ∉
      pack_files_from_tmp_to_spark_df 1 c10tree := by
  refine ⟨by decide, by decide, by decide⟩

end Sinara
